import Mathlib

/-!
Verification of the musidx incremental scan-and-catalogue engine.

This file gives a shallow embedding of the core of the program:
the freshness-driven re-scan (`processFile` / `processFiles` / `checkFileExistence`),
the persisted cache loader (`readCache`), the recursive taxonomy builder
(`collectMediaLibraryTaxonomy` with its sorters), the secondary-category filter
(`filterMediaLibraryTaxonomy`, both as a pure function on trees and as a
mutating procedure on an explicit heap), and the playlist resolution step
(`importPlaylists`).  JavaScript objects used as string-keyed mappings are
embedded as association lists in insertion order; JavaScript mutation is made
explicit either by returning the updated mapping or, where object identity
matters, by threading an explicit heap of cells addressed by natural numbers.
-/

namespace Musidx

/-! ## JavaScript string primitives

Strings are compared code-point-wise (the JS comparison is by UTF-16 code
unit, which agrees on the characters that occur in tags and paths).  We use
our own structurally recursive comparison and split functions so that all
definitions evaluate inside the kernel. -/

/-- Three-way comparison from a strict order, `if a < b then lt else if b < a then gt else eq`. -/
def ltCmp {α : Type} [LT α] [DecidableRel (LT.lt (α := α))] (a b : α) : Ordering :=
  if a < b then .lt else if b < a then .gt else .eq

/-- Lexicographic three-way comparison of character lists (the JS relational
operators on strings). -/
def charsCmp : List Char → List Char → Ordering
  | [], [] => .eq
  | [], _ :: _ => .lt
  | _ :: _, [] => .gt
  | a :: as, b :: bs =>
    if a < b then .lt else if b < a then .gt else charsCmp as bs

/-- Three-way comparison of strings, JS `<`/`>` semantics. -/
def strCmp (s t : String) : Ordering := charsCmp s.data t.data

/-- String order `s <= t` as used by the ascending sorts. -/
def strLe (s t : String) : Prop := strCmp s t ≠ .gt

instance : DecidableRel strLe := fun s t => by unfold strLe; infer_instance

/-- One step of JS `String.prototype.split` on a non-empty separator: scan the
character list, emitting a segment whenever the separator occurs.  The fuel is
an upper bound on the number of scan steps; `jsSplit` always supplies enough. -/
def splitStrAux (sep : List Char) : Nat → List Char → List Char → List (List Char)
  | 0, s, acc => [acc.reverse ++ s]
  | fuel + 1, s, acc =>
    match s with
    | [] => [acc.reverse]
    | c :: cs =>
      if sep.isPrefixOf (c :: cs) then
        acc.reverse :: splitStrAux sep fuel ((c :: cs).drop sep.length) []
      else
        splitStrAux sep fuel cs (c :: acc)

/-- JS `s.split(sep)` for a non-empty separator (the only case the program uses). -/
def jsSplit (s sep : String) : List String :=
  if sep.data.isEmpty then (s.data.map fun c => String.mk [c])
  else (splitStrAux sep.data (s.data.length + 1) s.data []).map String.mk

/-- JS `s.startsWith(pre)`. -/
def jsStartsWith (s pre : String) : Bool := pre.data.isPrefixOf s.data

/-- JS `s.toLowerCase()` (ASCII case folding suffices for the extensions used). -/
def jsToLower (s : String) : String := String.mk (s.data.map Char.toLower)

/-! ## Tag values and attribute mappings

A tag value as it occurs in the extracted metadata: a scalar string, an
ordered sequence of strings (e.g. `artists`, `genre`, `rating`), or a
track/disk index object `{no, of}` whose `no` may be null.  An attribute
mapping (`tags`, `category`, `format`) is a JS object embedded as an
association list in insertion order with unique keys. -/

inductive TagVal where
  | str (s : String)
  | arr (l : List String)
  | idx (no : Option Int)
deriving DecidableEq

/-- A JS object holding tag data: association list in insertion order. -/
abbrev Tags := List (String × TagVal)

/-- JS truthiness of a tag value: the empty string is falsy, arrays and
objects are truthy. -/
def jsTruthy : TagVal → Bool
  | .str s => s ≠ ""
  | .arr _ => true
  | .idx _ => true

/-- JS object spread `{...a, ...b}`: the keys of `a` in order with values
overridden by `b` where present, followed by the keys of `b` not in `a`. -/
def jsSpread (a b : Tags) : Tags :=
  (a.map fun kv => (kv.1, (b.lookup kv.1).getD kv.2)) ++
    b.filter fun kv => (a.lookup kv.1).isNone

/-- lodash `omit(obj, keys)`: drop the listed keys. -/
def omitKeys (ks : List String) (t : Tags) : Tags :=
  t.filter fun kv => ¬ ks.contains kv.1

/-- Coercion of a tag value to a JS object key (`items[taxData]`): strings are
themselves, arrays join with a comma, objects stringify to `[object Object]`. -/
def tagKeyString : TagVal → String
  | .str s => s
  | .arr l => String.intercalate "," l
  | .idx _ => "[object Object]"

/-! ## Records

One record per audio file, as written by `processFile` in `hacks.js`.  Every
field is optional because the error-only record `{error: String(err)}`
written by the `catch` in `processFiles` has none of the regular fields. -/

structure Record where
  tags : Option Tags := none
  category : Option Tags := none
  format : Option Tags := none
  /-- the `meta: {category: category?.code}` field; `some none` models a
  `meta` object whose `category` is `undefined`. -/
  metaCategory : Option (Option String) := none
  file : Option String := none
  time : Option Nat := none
  mtime : Option Nat := none
  ext : Option String := none
  error : Option String := none
deriving DecidableEq

/-- The record mapping `state.data`: a JS object keyed by relative path,
embedded as an association list in insertion order. -/
abbrev RecordMap := List (String × Record)

/-- JS assignment `m[k] = v`: replace in place when the key exists (position
preserved), otherwise append. -/
def setKey {α : Type} (m : List (String × α)) (k : String) (v : α) : List (String × α) :=
  if (m.lookup k).isSome then m.map fun kv => if kv.1 = k then (k, v) else kv
  else m ++ [(k, v)]

/-- JS `delete m[k]`. -/
def delKey {α : Type} (m : List (String × α)) (k : String) : List (String × α) :=
  m.filter fun kv => kv.1 ≠ k

/-! ## The persisted record cache (`cache.js`)

`readCache` reads `<path>.gz`, gunzips it and parses the JSON.  The embedding
models the three layers of the stored artifact (file present?, gzip blob
intact?, JSON well-formed?) and the error objects Node produces at each
layer: `fs.readFile` of a missing file rejects with `code = 'ENOENT'`,
`zlib.gunzip` of a corrupt blob rejects with a plain `Error` whose `code` is
`'Z_DATA_ERROR'`, and `JSON.parse` of malformed text throws a `SyntaxError`. -/

/-- A JS error as far as `readCache`'s catch clause inspects it. -/
structure JsError where
  name : String
  code : Option String
deriving DecidableEq

/-- The JSON layer of the persisted blob. -/
inductive CacheJson where
  | malformed
  | wellFormed (data : RecordMap)

/-- The persisted cache artifact on disk. -/
inductive CacheFile where
  | missing
  | corruptBlob
  | blob (json : CacheJson)

/-- The body of `readCache`'s `try` block: read, gunzip, `JSON.parse`. -/
def readCacheAttempt : CacheFile → Except JsError RecordMap
  | .missing => .error ⟨"Error", some "ENOENT"⟩
  | .corruptBlob => .error ⟨"Error", some "Z_DATA_ERROR"⟩
  | .blob .malformed => .error ⟨"SyntaxError", none⟩
  | .blob (.wellFormed data) => .ok data

/-- `readCache` from `cache.js`: catch `ENOENT` and `SyntaxError` and return
the empty mapping; rethrow anything else. -/
def readCache (cf : CacheFile) : Except JsError RecordMap :=
  match readCacheAttempt cf with
  | .ok data => .ok data
  | .error err =>
    if err.code = some "ENOENT" then .ok []
    else if err.name = "SyntaxError" then .ok []
    else .error err

/-! ## The scan orchestrator (`hacks.js`, `MusicIndexer`)

`processTags` (tags.js) does file I/O through the external extractor, so it is
the extraction oracle of the model: a function from the file path to either a
tag payload or the stringified reason of the thrown error.  The file system is
two total functions: `mtimeOf` (what `fs.stat` reports, in ms) and `present`
(what `fileExists` reports for the joined path). -/

/-- The value `processTags` resolves with: `{tags, category, format}`. -/
structure TagPayload where
  tags : Tags
  category : Tags
  format : Tags
deriving DecidableEq

/-- A category definition from the profile, as far as the scanner reads it. -/
structure Category where
  name : String := ""
  code : String := ""
  basedir : Option String := none
  taxonomy : Option (List String) := none
  inherits : Option String := none

/-- `getBaseDir`: first path segment after stripping a leading slash. -/
def getBaseDir (file : String) : String :=
  let rel := if jsStartsWith file "/" then file.drop 1 else file
  (jsSplit rel "/").headD ""

/-- `getCategory`: the first category whose `basedir` strictly equals the
file's base directory (`undefined === basedir` is false). -/
def getCategory (file : String) (categories : List Category) : Option Category :=
  categories.find? fun cat => cat.basedir = some (getBaseDir file)

/-- `path.extname(file.toLowerCase()).slice(1)`: the extension of the
lower-cased basename, empty when there is no dot or only a leading dot. -/
def extOf (file : String) : String :=
  let lower := jsToLower file
  let base := (jsSplit lower "/").getLastD lower
  let parts := jsSplit base "."
  if parts.length ≤ 1 then ""
  else if parts.length = 2 ∧ parts.headD "" = "" then ""
  else parts.getLastD ""

/-- `isFresh` (hacks.js:145): true iff the stored entry for `file` has a
non-null `mtime` strictly equal to the current `stat.mtimeMs`. -/
def isFresh (data : RecordMap) (file : String) (curMtime : Nat) : Bool :=
  match data.lookup file with
  | some r => decide (r.mtime = some curMtime)
  | none => false

/-- The record `processFile` writes for a successfully extracted file. -/
def freshRecord (payload : TagPayload) (cat : Option Category) (file : String)
    (now curMtime : Nat) : Record :=
  { tags := some payload.tags
    category := some payload.category
    format := some payload.format
    metaCategory := some (cat.map Category.code)
    file := some file
    time := some now
    mtime := some curMtime
    ext := some (extOf file)
    error := none }

/-- The error-only record the `catch` clause of `processFiles` writes:
`state.data[file] = {error: String(err)}`. -/
def errRecord (reason : String) : Record := { error := some reason }

/-- `processFile` (hacks.js:168): skip when fresh and not forced, otherwise
extract and overwrite the record.  The `Except` propagates an extraction
failure to the caller exactly as the JS exception does; the returned `Bool`
is the `skipped` flag. -/
def processFile (extract : String → Except String TagPayload)
    (categories : List Category) (mtimeOf : String → Nat) (now : Nat)
    (forceRefresh : Bool) (data : RecordMap) (file : String) :
    Except String (RecordMap × Bool) :=
  if isFresh data file (mtimeOf file) ∧ ¬ forceRefresh then
    .ok (data, true)
  else
    match extract file with
    | .error e => .error e
    | .ok payload =>
      .ok (setKey data file
        (freshRecord payload (getCategory file categories) file now (mtimeOf file)), false)

/-- `processFiles` (hacks.js:194): sequential loop over the batch; a per-file
failure is caught and folded into the mapping as an error-only record, and the
loop continues.  The second component counts how many times the external
extractor was invoked (an invocation that fails still counts). -/
def processFiles (extract : String → Except String TagPayload)
    (categories : List Category) (mtimeOf : String → Nat) (now : Nat)
    (forceRefresh : Bool) (data : RecordMap) : List String → RecordMap × Nat
  | [] => (data, 0)
  | file :: rest =>
    match processFile extract categories mtimeOf now forceRefresh data file with
    | .ok (data', skipped) =>
      let (dataFinal, n) := processFiles extract categories mtimeOf now forceRefresh data' rest
      (dataFinal, (if skipped then 0 else 1) + n)
    | .error e =>
      let (dataFinal, n) :=
        processFiles extract categories mtimeOf now forceRefresh (setKey data file (errRecord e)) rest
      (dataFinal, 1 + n)

/-- The loop body of `checkFileExistence` over a snapshot of the entries:
`path.join(musicPath, value.file)` throws a `TypeError` when `value.file` is
`undefined` (the error-only record), otherwise the entry is deleted from the
mapping (by its key) when the file no longer exists. -/
def checkFELoop (present : String → Bool) : RecordMap → RecordMap → Except JsError RecordMap
  | acc, [] => .ok acc
  | acc, (key, r) :: rest =>
    match r.file with
    | none => .error ⟨"TypeError", none⟩
    | some f =>
      if present f then checkFELoop present acc rest
      else checkFELoop present (delKey acc key) rest

/-- `checkFileExistence` (hacks.js:219): iterate over `Object.entries(state.data)`
and prune records whose file is gone. -/
def checkFileExistence (present : String → Bool) (data : RecordMap) :
    Except JsError RecordMap :=
  checkFELoop present data data

/-- One scan pass of `indexPath` over the record cache (hacks.js:406-409):
`processFiles` followed by `checkFileExistence`; on success the resulting
mapping is what `writeCache(fileCachePath, state.data)` persists (the
serialization is deterministic, so equal mappings give byte-identical
caches).  Returns the persisted mapping and the number of extractor calls. -/
def scanRun (extract : String → Except String TagPayload)
    (categories : List Category) (mtimeOf : String → Nat) (present : String → Bool)
    (now : Nat) (forceRefresh : Bool) (data : RecordMap) (files : List String) :
    Except JsError (RecordMap × Nat) :=
  let (d, n) := processFiles extract categories mtimeOf now forceRefresh data files
  match checkFileExistence present d with
  | .ok d' => .ok (d', n)
  | .error e => .error e

/-! ## Playlist import (`hacks.js`, `importPlaylists`) -/

/-- A track reference as produced by the playlist source parser: only the
normalized file path. -/
structure Track where
  file : String
deriving DecidableEq

/-- A playlist definition as returned by `findPlaylists`. -/
structure Playlist where
  title : String
  file : String
  id : String
  tracks : List Track
deriving DecidableEq

/-- A playlist whose tracks have been replaced by the looked-up records
(`state.data[track.file]`, which is `undefined` — `none` — when absent). -/
structure ResolvedPlaylist where
  title : String
  file : String
  id : String
  tracks : List (Option Record)
deriving DecidableEq

/-- The `pl` computation inside `importPlaylists` (hacks.js:390-396): map every
track of every playlist to the record found under its file path, preserving
playlist order and track order. -/
def resolveTracks (data : RecordMap) (playlists : List Playlist) :
    List ResolvedPlaylist :=
  playlists.map fun pl =>
    { title := pl.title
      file := pl.file
      id := pl.id
      tracks := pl.tracks.map fun track => data.lookup track.file }

/-- `importPlaylists` (hacks.js:388-401) as written: it computes `pl` and then
stores the original `playlists` into `state.ml.playlists`, so the resolved
list is discarded.  The returned value is what the media-library state (and
hence the persisted catalogue snapshot) receives. -/
def importPlaylists (data : RecordMap) (playlists : List Playlist) : List Playlist :=
  let _pl := resolveTracks data playlists
  playlists

/-! ## The taxonomy builder (`hacks.js`, `collectMediaLibraryTaxonomy`) -/

/-- The ungrouped sentinel `'__NONE__'`. -/
def NONE : String := "__NONE__"

/-- The loop of `getTaxonomyValue` over the `__or__`-separated alternatives:
return the first alternative whose value is truthy (for an array, whose first
element is truthy), taking an array's first element as the value. -/
def taxLookup (tags : Tags) : List String → TagVal
  | [] => .str NONE
  | keyItem :: rest =>
    match tags.lookup keyItem with
    | none => taxLookup tags rest
    | some v =>
      match v with
      | .str s => if s ≠ "" then .str s else taxLookup tags rest
      | .arr l =>
        match l.head? with
        | some h => if h ≠ "" then .str h else taxLookup tags rest
        | none => taxLookup tags rest
      | .idx no => .idx no

/-- `getTaxonomyValue` (hacks.js:255): split the key on `__or__` and return
the first match, else the sentinel. -/
def getTaxonomyValue (tags : Tags) (key : String) : TagVal :=
  taxLookup tags (jsSplit key "__or__")

/-- The specification's reading of one ranked alternative: a scalar holds a
non-empty value when it is a non-empty string; an ordered sequence contributes
its first element when that element is non-empty.  Index objects fall outside
the spec's attribute-value model (scalars and sequences only). -/
def specRankedValue : TagVal → Option TagVal
  | .str s => if s = "" then none else some (.str s)
  | .arr l =>
    match l.head? with
    | some h => if h = "" then none else some (.str h)
    | none => none
  | .idx _ => none

/-- The specification's grouping value (§4.3): the first ranked attribute that
holds a non-empty value, else the ungrouped sentinel. -/
def specGroupValue (tags : Tags) (key : String) : TagVal :=
  match (jsSplit key "__or__").findSome? (fun k => (tags.lookup k).bind specRankedValue) with
  | some v => v
  | none => .str NONE

/-- Whether a tag value has one of the two shapes of the spec's attribute
values (scalar or ordered sequence). -/
def isAttrShape : TagVal → Bool
  | .str _ => true
  | .arr _ => true
  | .idx _ => false

/-- The grouping attributes of a record: `{...file.tags, ...file.category}`
(spreading a missing mapping contributes nothing). -/
def mergedTags (r : Record) : Tags :=
  jsSpread (r.tags.getD []) (r.category.getD [])

/-- A numeric sort column as lodash `compareAscending` orders it ascending:
numbers first by value, then `null`, then `undefined`. -/
inductive NVal where
  | num (n : Int)
  | nullv
  | undefv
deriving DecidableEq

/-- A string sort column: strings by the JS relational operators (objects and
arrays coerce to their string form first), then `undefined` last. -/
inductive SVal where
  | strv (s : String)
  | undefv
deriving DecidableEq

/-- Three-way comparison of numeric sort columns. -/
def nvalCmp : NVal → NVal → Ordering
  | .num a, .num b => ltCmp a b
  | .num _, .nullv => .lt
  | .num _, .undefv => .lt
  | .nullv, .num _ => .gt
  | .nullv, .nullv => .eq
  | .nullv, .undefv => .lt
  | .undefv, .undefv => .eq
  | .undefv, .num _ => .gt
  | .undefv, .nullv => .gt

/-- Three-way comparison of string sort columns. -/
def svalCmp : SVal → SVal → Ordering
  | .strv a, .strv b => strCmp a b
  | .strv _, .undefv => .lt
  | .undefv, .strv _ => .gt
  | .undefv, .undefv => .eq

/-- lodash `get(record, 'tags.<k>.no')`: the `no` field when `tags.<k>` is an
index object (null giving the null column value), `undefined` otherwise. -/
def getIdxNo (tags : Option Tags) (k : String) : NVal :=
  match tags with
  | none => .undefv
  | some tg =>
    match tg.lookup k with
    | some (.idx (some n)) => .num n
    | some (.idx none) => .nullv
    | some (.str _) => .undefv
    | some (.arr _) => .undefv
    | none => .undefv

/-- The `'1.tags.disk.no'` column of a `[key, record]` entry. -/
def colDisk (e : String × Record) : NVal := getIdxNo e.2.tags "disk"

/-- The `'1.tags.track.no'` column. -/
def colTrack (e : String × Record) : NVal := getIdxNo e.2.tags "track"

/-- The `'1.file'` column. -/
def colFile (e : String × Record) : SVal :=
  match e.2.file with
  | some f => .strv f
  | none => .undefv

/-- The `'1.tags.title'` column; a non-string value coerces to its JS string
form under the relational operators. -/
def colTitle (e : String × Record) : SVal :=
  match e.2.tags with
  | none => .undefv
  | some tg =>
    match tg.lookup "title" with
    | some v => .strv (tagKeyString v)
    | none => .undefv

/-- The composite comparison of `sortAlbumFiles`: disk number, then track
number, then file path, then title, all ascending. -/
def albumCmp (a b : String × Record) : Ordering :=
  (nvalCmp (colDisk a) (colDisk b)).then
    ((nvalCmp (colTrack a) (colTrack b)).then
      ((svalCmp (colFile a) (colFile b)).then
        (svalCmp (colTitle a) (colTitle b))))

/-- The composite order of `sortAlbumFiles` as a binary relation. -/
def albumLe (a b : String × Record) : Prop := albumCmp a b ≠ .gt

instance : DecidableRel albumLe := fun a b => by unfold albumLe; infer_instance

/-- `sortAlbumFiles` (hacks.js:237): stable ascending sort of the leaf entries
by the composite key (lodash `orderBy` is a stable sort; insertion sort is the
same stable sort). -/
def sortAlbumFiles (dataFiles : List (String × Record)) : List (String × Record) :=
  dataFiles.insertionSort albumLe

/-- A node of the taxonomy tree.  The JS object has a single `items` mapping
holding either sub-nodes or files; the embedding carries one field for each
shape, with `isEndNode` discriminating which one the original `items` is
(the other stays empty on every node the builder produces). -/
inductive TNode where
  | mk (key : String) (data : TagVal) (isNullCollection : Bool) (isEndNode : Bool)
      (children : List (String × TNode)) (files : List (String × Record))
      (tags : Option Tags)

/-- The `key` field of a node. -/
def TNode.key : TNode → String
  | .mk k _ _ _ _ _ _ => k

/-- The `data` field of a node (the raw grouping value). -/
def TNode.data : TNode → TagVal
  | .mk _ d _ _ _ _ _ => d

/-- The `isEndNode` flag. -/
def TNode.isEndNode : TNode → Bool
  | .mk _ _ _ e _ _ _ => e

/-- The sub-nodes of a branch node. -/
def TNode.children : TNode → List (String × TNode)
  | .mk _ _ _ _ c _ _ => c

/-- The member files of a leaf node. -/
def TNode.files : TNode → List (String × Record)
  | .mk _ _ _ _ _ f _ => f

/-- The representative `tags` snapshot of a leaf node. -/
def TNode.tags : TNode → Option Tags
  | .mk _ _ _ _ _ _ t => t

/-- The key order of `sortTaxonomyItems` on `[key, node]` entries. -/
def taxKeyLe (a b : String × TNode) : Prop := strLe a.1 b.1

instance : DecidableRel taxKeyLe := fun a b => by unfold taxKeyLe; infer_instance

/-- `sortTaxonomyItems` (hacks.js:246): sort a collection's entries by their
key, ascending. -/
def sortTaxonomyItems (items : List (String × TNode)) : List (String × TNode) :=
  items.insertionSort taxKeyLe

/-- Insert a file into the group for its grouping value: on the first file of
a group a fresh group is appended (recording the raw grouping value), later
files append to the existing group in place. -/
def addToGroups (groups : List (String × TagVal × List (String × Record)))
    (gkey : String) (td : TagVal) (entry : String × Record) :
    List (String × TagVal × List (String × Record)) :=
  match groups.lookup gkey with
  | some (tdFirst, fs) => setKey groups gkey (tdFirst, fs ++ [entry])
  | none => groups ++ [(gkey, td, [entry])]

/-- The grouping loop of `collectMediaLibraryTaxonomy` (hacks.js:276-288):
partition the entries by the string form of their grouping value, in
first-encounter order. -/
def collectGroups (taxKey : String) (dataFiles : List (String × Record)) :
    List (String × TagVal × List (String × Record)) :=
  dataFiles.foldl
    (fun groups kf =>
      let taxData := getTaxonomyValue (mergedTags kf.2) taxKey
      addToGroups groups (tagKeyString taxData) taxData kf)
    []

/-- Build a leaf node (hacks.js:296-305): sort the member files, mark the node
an end node, and snapshot the first member's merged attributes minus
`title`, `track` and `disk` (only when a first member exists). -/
def leafNode (taxKey : String) (td : TagVal) (fs : List (String × Record)) : TNode :=
  let sorted := sortAlbumFiles fs
  let tags :=
    match sorted.head? with
    | some fe => some (omitKeys ["title", "track", "disk"] (mergedTags fe.2))
    | none => none
  TNode.mk taxKey td (decide (td = .str NONE)) true [] sorted tags

/-- `collectMediaLibraryTaxonomy` (hacks.js:273): group the records by the
current key; when further keys remain, recurse into each group and sort the
resulting sub-collections by key — the returned top level itself stays in
first-encounter order; when no keys remain, build leaf nodes. -/
def collectMediaLibraryTaxonomy (dataFiles : List (String × Record)) (taxKey : String) :
    List String → List (String × TNode)
  | tk :: rest =>
    (collectGroups taxKey dataFiles).map fun g =>
      (g.1, TNode.mk taxKey g.2.1 (decide (g.2.1 = .str NONE)) false
        (sortTaxonomyItems (collectMediaLibraryTaxonomy g.2.2 tk rest)) [] none)
  | [] =>
    (collectGroups taxKey dataFiles).map fun g => (g.1, leafNode taxKey g.2.1 g.2.2)

/-- `getCategoryFiles` (hacks.js:345): the records claimed by a primary
category (`file.meta?.category === category.code`). -/
def getCategoryFiles (category : Category) (dataFiles : RecordMap) : RecordMap :=
  dataFiles.filter fun kv =>
    match kv.2.metaCategory with
    | some (some c) => decide (c = category.code)
    | _ => false

/-- The taxonomy tree `catalogueMediaLibrary` stores for a primary category
(hacks.js:358-367): `none` when the category has no classification keys. -/
def primaryCategoryItems (cat : Category) (data : RecordMap) :
    Option (List (String × TNode)) :=
  match cat.taxonomy with
  | none => none
  | some [] => none
  | some (tk :: rest) => some (collectMediaLibraryTaxonomy (getCategoryFiles cat data) tk rest)

/-- `filterMediaLibraryTaxonomy` (hacks.js:316) as a pure function on trees:
filter the files of an end node (dropping the node when none survive),
recurse into the sub-nodes of a branch (dropping the branch when it loses all
children); `compactObject` removes the dropped slots. -/
def filterMediaLibraryTaxonomy (pred : Record → Bool) :
    List (String × TNode) → List (String × TNode)
  | [] => []
  | (k, TNode.mk key data isNull isEnd children files tags) :: rest =>
    let rest' := filterMediaLibraryTaxonomy pred rest
    if isEnd then
      let files' := files.filter fun kv => pred kv.2
      if files'.isEmpty then rest'
      else (k, TNode.mk key data isNull isEnd children files' tags) :: rest'
    else
      let children' := filterMediaLibraryTaxonomy pred children
      if children'.isEmpty then rest'
      else (k, TNode.mk key data isNull isEnd children' files tags) :: rest'

/-- Whether every node of a forest is non-empty: an end node has at least one
file, a branch has at least one child and all its children are recursively
non-empty. -/
def forestNonEmpty : List (String × TNode) → Bool
  | [] => true
  | (_, TNode.mk _ _ _ isEnd children files _) :: rest =>
    (if isEnd then !files.isEmpty else !children.isEmpty && forestNonEmpty children) &&
      forestNonEmpty rest

/-- The records that are members of some leaf (end node) of a forest. -/
def leafMembers : List (String × TNode) → List Record
  | [] => []
  | (_, TNode.mk _ _ _ isEnd children files _) :: rest =>
    (if isEnd then files.map Prod.snd else leafMembers children) ++ leafMembers rest

/-- Whether the keys of adjacent entries are in ascending order. -/
def keysAscB : List (String × TNode) → Bool
  | [] => true
  | [_] => true
  | a :: b :: rest =>
    (match strCmp a.1 b.1 with
     | .gt => false
     | _ => true) && keysAscB (b :: rest)

/-- Whether, for every node of a forest, the node's list of sub-collections is
in ascending key order (recursively); the order of the forest's own top-level
entries is not constrained. -/
def nodesSorted : List (String × TNode) → Bool
  | [] => true
  | (_, TNode.mk _ _ _ _ children _ _) :: rest =>
    (keysAscB children && nodesSorted children) && nodesSorted rest

/-- The claim's reading: every branch level including the root level itself is
in ascending key order. -/
def allLevelsSorted (items : List (String × TNode)) : Bool :=
  keysAscB items && nodesSorted items

/-! ## The category deriver on an explicit heap (`cloneDeep` + mutation)

`filterMediaLibraryTaxonomy` mutates the node objects it visits (it
reassigns `item.items` and nulls map slots), and `catalogueMediaLibrary`
protects the primary tree by passing `cloneDeep(baseCategory.items)`
(hacks.js:378).  To verify that frame property the tree is embedded a second
time with object identity made explicit: nodes live in a heap of cells
addressed by allocation order, child maps hold addresses, and mutation is a
`List.set` on the heap.  Recursions carry fuel so that they are structurally
executable; any sufficient fuel gives the same result. -/

/-- A taxonomy node object in the heap. -/
structure Cell where
  key : String
  data : TagVal
  isNullCollection : Bool
  isEndNode : Bool
  children : List (String × Nat)
  files : List (String × Record)
  tags : Option Tags
deriving DecidableEq

/-- The object heap: cell at address `a` is `H[a]?`; allocation appends. -/
abbrev Heap := List Cell

/-- lodash `cloneDeep` on a map of nodes: copy every reachable cell into fresh
addresses, rebuilding child maps over the fresh copies. -/
def cloneEntries : Nat → Heap → List (String × Nat) → Option (Heap × List (String × Nat))
  | 0, _, _ => none
  | _ + 1, H, [] => some (H, [])
  | fuel + 1, H, (k, a) :: rest =>
    match H[a]? with
    | none => none
    | some c =>
      match cloneEntries fuel H c.children with
      | none => none
      | some (H₁, ch') =>
        let fresh := H₁.length
        match cloneEntries fuel (H₁ ++ [{ c with children := ch' }]) rest with
        | none => none
        | some (H₂, rest') => some (H₂, (k, fresh) :: rest')

/-- `filterMediaLibraryTaxonomy` as the mutating procedure it is in the
source: the files of an end node are filtered and written back into the cell,
a branch's cell receives its filtered child map, and a slot whose node became
empty is dropped from the returned map (`items[key] = null` followed by
`compactObject`).  Nodes are mutated even when their slot is then dropped,
exactly as in the source. -/
def filterEntries (pred : Record → Bool) :
    Nat → Heap → List (String × Nat) → Option (Heap × List (String × Nat))
  | 0, _, _ => none
  | _ + 1, _H, [] => some (_H, [])
  | fuel + 1, H, (k, a) :: rest =>
    match H[a]? with
    | none => none
    | some c =>
      if c.isEndNode then
        let files' := c.files.filter fun kv => pred kv.2
        match filterEntries pred fuel (H.set a { c with files := files' }) rest with
        | none => none
        | some (H₂, res) => some (H₂, if files'.isEmpty then res else (k, a) :: res)
      else
        match filterEntries pred fuel H c.children with
        | none => none
        | some (H₁, ch') =>
          match H₁[a]? with
          | none => none
          | some c₁ =>
            match filterEntries pred fuel (H₁.set a { c₁ with children := ch' }) rest with
            | none => none
            | some (H₃, res) => some (H₃, if ch'.isEmpty then res else (k, a) :: res)

/-- The secondary-category derivation (hacks.js:378):
`filterMediaLibraryTaxonomy(cloneDeep(baseCategory.items), cat.filter)`. -/
def deriveSecondary (pred : Record → Bool) (fuel₁ fuel₂ : Nat) (H : Heap)
    (m : List (String × Nat)) : Option (Heap × List (String × Nat)) :=
  match cloneEntries fuel₁ H m with
  | none => none
  | some (H₁, m₁) =>
    match filterEntries pred fuel₂ H₁ m₁ with
    | none => none
    | some (H₂, res) => some (H₂, res)

/-- The region of a heap at or above address `lo` is closed: every cell there
has all its children at or above `lo`.  The cloned copy of a tree lives in
such a region, so filtering it cannot write below `lo`. -/
def heapAbove (H : Heap) (lo : Nat) : Prop :=
  ∀ a c, lo ≤ a → H[a]? = some c → ∀ p ∈ c.children, lo ≤ p.2

/-! ## Auxiliary predicates used by the scan theorems -/

/-- Whether `checkFileExistence` would delete this entry: its `file` is absent
from the file system (an entry without a `file` field makes the pass throw
before any decision). -/
def badEntry (present : String → Bool) (kv : String × Record) : Bool :=
  match kv.2.file with
  | some f => ! present f
  | none => true

/-- The keys the pruning pass deletes from the mapping. -/
def badKeys (present : String → Bool) (entries : RecordMap) : List String :=
  (entries.filter (badEntry present)).map Prod.fst

/-- Decidable equality of `Except` results, used to evaluate concrete runs. -/
instance {ε α : Type} [DecidableEq ε] [DecidableEq α] : DecidableEq (Except ε α)
  | .error a, .error b =>
    if h : a = b then .isTrue (by rw [h]) else .isFalse (fun he => h (Except.error.inj he))
  | .error _, .ok _ => .isFalse (fun he => Except.noConfusion he)
  | .ok _, .error _ => .isFalse (fun he => Except.noConfusion he)
  | .ok a, .ok b =>
    if h : a = b then .isTrue (by rw [h]) else .isFalse (fun he => h (Except.ok.inj he))

/-! ## Concrete example data used by the witness and counterexample theorems -/

/-- A total extractor returning one title tag, for the freshness example. -/
def c1Extract : String → Except String TagPayload :=
  fun _ => .ok ⟨[("title", .str "T")], [], []⟩

/-- An extractor that fails on one specific file, for the error-isolation
example. -/
def c7Extract : String → Except String TagPayload :=
  fun g => if g = "bad.mp3" then .error "Error: boom"
    else .ok ⟨[("title", .str "X")], [], []⟩

/-- The record the first scan run of the freshness example writes. -/
def c1Rec : Record :=
  { tags := some [("title", .str "T")], category := some [], format := some [],
    metaCategory := some none, file := some "m/a.mp3", time := some 5,
    mtime := some 7, ext := some "mp3", error := none }

/-- A catalogued record for the playlist-resolution example. -/
def plRecord : Record := { file := some "Artist/Song.mp3", mtime := some 100 }

/-- A record mapping holding `plRecord` under its path. -/
def plData : RecordMap := [("Artist/Song.mp3", plRecord)]

/-- One playlist whose single track reference resolves to `plRecord`. -/
def plDefs : List Playlist :=
  [{ title := "Favorites", file := "plf.m3u8", id := "1",
     tracks := [{ file := "Artist/Song.mp3" }] }]

/-- A record with one grouping attribute, claimed by category `m`. -/
def c3Rec (v : String) : Record :=
  { tags := some [("k1", .str v)], metaCategory := some (some "m"),
    file := some (v ++ ".mp3") }

/-- Two records whose grouping values arrive in descending order. -/
def c3Data : RecordMap := [("b.mp3", c3Rec "b"), ("a.mp3", c3Rec "a")]

/-- A primary category with a two-level taxonomy. -/
def c3Cat : Category :=
  { name := "Music", code := "m", basedir := some "m", taxonomy := some ["k1", "k2"] }

/-- A record carrying only disk and track index objects. -/
def c5Rec (d t : Option Int) : Record :=
  { tags := some [("disk", .idx d), ("track", .idx t)] }

/-- Three records in the order of the spec's leaf-ordering example:
container (disk) indexes 2, 1, 1 and item (track) indexes none, 2, 1. -/
def c5Data : List (String × Record) :=
  [("f1", c5Rec (some 2) none), ("f2", c5Rec (some 1) (some 2)),
   ("f3", c5Rec (some 1) (some 1))]

/-- The single leaf node the builder produces from `c5Data` (no grouping
attribute is present, so everything lands under the sentinel), with its
members in composite-key order. -/
def c5Leaf : String × TNode :=
  ("__NONE__", TNode.mk "album" (.str "__NONE__") true true []
    [("f3", c5Rec (some 1) (some 1)), ("f2", c5Rec (some 1) (some 2)),
     ("f1", c5Rec (some 2) none)]
    (some []))

/-- A heap cell holding one end node with one member file. -/
def c9Cell : Cell :=
  { key := "album", data := .str "X", isNullCollection := false, isEndNode := true,
    children := [], files := [("f", c5Rec (some 1) (some 1))], tags := none }

/-- A one-cell heap: the primary tree lives at address 0. -/
def c9Heap : Heap := [c9Cell]

/-- A two-level tree with one branch holding one leaf with one member. -/
def c8Tree : List (String × TNode) :=
  [("g", TNode.mk "artist" (.str "g") false false
    [("al", TNode.mk "album" (.str "al") false true []
      [("f", c5Rec (some 1) (some 1))] none)] [] none)]

/-! ## A small theory of three-way comparators

The lodash sorts compare by a chain of three-way comparisons; these laws are
what `insertionSort` needs about the induced not-greater-than relations. -/

/-- The laws of a lawful three-way comparator: antisymmetry of the result,
transitivity of strictly-less, and substitutivity of compares-equal. -/
structure CmpLaws {α : Type} (c : α → α → Ordering) : Prop where
  swap_eq : ∀ x y, c y x = (c x y).swap
  lt_trans : ∀ {x y z}, c x y = .lt → c y z = .lt → c x z = .lt
  eq_left : ∀ {x y} (z : α), c x y = .eq → c x z = c y z
  eq_right : ∀ (x : α) {y z}, c y z = .eq → c x y = c x z

/-! # Theorems -/

/-! ## Comparator laws -/

theorem then_swap (o₁ o₂ : Ordering) : (o₁.then o₂).swap = o₁.swap.then o₂.swap := by
  cases o₁ <;> cases o₂ <;> rfl

theorem then_eq_eq {o₁ o₂ : Ordering} : o₁.then o₂ = .eq ↔ o₁ = .eq ∧ o₂ = .eq := by
  cases o₁ <;> simp [Ordering.then]

theorem then_eq_lt {o₁ o₂ : Ordering} :
    o₁.then o₂ = .lt ↔ o₁ = .lt ∨ (o₁ = .eq ∧ o₂ = .lt) := by
  cases o₁ <;> simp [Ordering.then]

theorem ltCmp_lt_iff {α : Type} [LinearOrder α] {a b : α} : ltCmp a b = .lt ↔ a < b := by
  unfold ltCmp
  rcases lt_trichotomy a b with h | h | h
  · simp [h]
  · simp [h, lt_irrefl]
  · simp [lt_asymm h, h, not_lt_of_gt h]

theorem ltCmp_eq_iff {α : Type} [LinearOrder α] {a b : α} : ltCmp a b = .eq ↔ a = b := by
  unfold ltCmp
  rcases lt_trichotomy a b with h | h | h
  · simp [h, ne_of_lt h]
  · simp [h, lt_irrefl]
  · simp [lt_asymm h, h, (ne_of_lt h).symm]

theorem ltCmp_swap {α : Type} [LinearOrder α] (a b : α) : ltCmp b a = (ltCmp a b).swap := by
  unfold ltCmp
  rcases lt_trichotomy a b with h | h | h
  · simp [h, lt_asymm h, Ordering.swap]
  · simp [h, lt_irrefl, Ordering.swap]
  · simp [h, lt_asymm h, Ordering.swap]

theorem ltCmp_laws {α : Type} [LinearOrder α] : CmpLaws (ltCmp (α := α)) := by
  refine ⟨ltCmp_swap, ?_, ?_, ?_⟩
  · intro x y z h₁ h₂
    exact ltCmp_lt_iff.mpr (lt_trans (ltCmp_lt_iff.mp h₁) (ltCmp_lt_iff.mp h₂))
  · intro x y z h
    rw [ltCmp_eq_iff.mp h]
  · intro x y z h
    rw [ltCmp_eq_iff.mp h]

theorem cmpLaws_of_eq_iff {α : Type} {c : α → α → Ordering}
    (hs : ∀ x y, c y x = (c x y).swap)
    (ht : ∀ {x y z}, c x y = .lt → c y z = .lt → c x z = .lt)
    (he : ∀ {x y}, c x y = .eq ↔ x = y) : CmpLaws c := by
  refine ⟨hs, ht, ?_, ?_⟩
  · intro x y z h
    rw [he.mp h]
  · intro x y z h
    rw [he.mp h]

theorem CmpLaws.pull {α β : Type} (f : α → β) {c : β → β → Ordering} (h : CmpLaws c) :
    CmpLaws (fun x y => c (f x) (f y)) := by
  refine ⟨fun x y => h.swap_eq (f x) (f y), ?_, ?_, ?_⟩
  · intro x y z h₁ h₂
    exact h.lt_trans h₁ h₂
  · intro x y z h₁
    exact h.eq_left (f z) h₁
  · intro x y z h₁
    exact h.eq_right (f x) h₁

theorem CmpLaws.chain {α : Type} {c₁ c₂ : α → α → Ordering}
    (h₁ : CmpLaws c₁) (h₂ : CmpLaws c₂) :
    CmpLaws (fun x y => (c₁ x y).then (c₂ x y)) := by
  refine ⟨?_, ?_, ?_, ?_⟩
  · intro x y
    rw [h₁.swap_eq x y, h₂.swap_eq x y, then_swap]
  · intro x y z hxy hyz
    rcases then_eq_lt.mp hxy with h | ⟨he, hl⟩
    · rcases then_eq_lt.mp hyz with h' | ⟨he', _⟩
      · exact then_eq_lt.mpr (Or.inl (h₁.lt_trans h h'))
      · exact then_eq_lt.mpr (Or.inl (by rw [← h₁.eq_right x he']; exact h))
    · rcases then_eq_lt.mp hyz with h' | ⟨he', hl'⟩
      · exact then_eq_lt.mpr (Or.inl (by rw [h₁.eq_left z he]; exact h'))
      · refine then_eq_lt.mpr (Or.inr ⟨?_, h₂.lt_trans hl hl'⟩)
        rw [h₁.eq_left z he]
        exact he'
  · intro x y z h
    rcases then_eq_eq.mp h with ⟨e₁, e₂⟩
    rw [h₁.eq_left z e₁, h₂.eq_left z e₂]
  · intro x y z h
    rcases then_eq_eq.mp h with ⟨e₁, e₂⟩
    rw [h₁.eq_right x e₁, h₂.eq_right x e₂]

theorem CmpLaws.le_trans {α : Type} {c : α → α → Ordering} (h : CmpLaws c) {x y z : α}
    (h₁ : c x y ≠ .gt) (h₂ : c y z ≠ .gt) : c x z ≠ .gt := by
  cases e₁ : c x y with
  | gt => exact absurd e₁ h₁
  | eq => rw [h.eq_left z e₁]; exact h₂
  | lt =>
    cases e₂ : c y z with
    | gt => exact absurd e₂ h₂
    | eq => rw [← h.eq_right x e₂, e₁]; simp
    | lt => rw [h.lt_trans e₁ e₂]; simp

theorem CmpLaws.le_total {α : Type} {c : α → α → Ordering} (h : CmpLaws c) (x y : α) :
    c x y ≠ .gt ∨ c y x ≠ .gt := by
  cases e : c x y with
  | lt => exact Or.inl (by simp [e])
  | eq => exact Or.inl (by simp [e])
  | gt =>
    refine Or.inr ?_
    rw [h.swap_eq x y, e]
    simp [Ordering.swap]

theorem charsCmp_swap : ∀ (a b : List Char), charsCmp b a = (charsCmp a b).swap
  | [], [] => rfl
  | [], _ :: _ => rfl
  | _ :: _, [] => rfl
  | a :: as, b :: bs => by
    simp only [charsCmp]
    rcases lt_trichotomy a b with h | h | h
    · simp [h, lt_asymm h, Ordering.swap]
    · subst h
      simp [lt_irrefl, charsCmp_swap as bs]
    · simp [h, lt_asymm h, Ordering.swap]

theorem charsCmp_eq_iff : ∀ {a b : List Char}, charsCmp a b = .eq ↔ a = b
  | [], [] => by simp [charsCmp]
  | [], _ :: _ => by simp [charsCmp]
  | _ :: _, [] => by simp [charsCmp]
  | a :: as, b :: bs => by
    simp only [charsCmp]
    rcases lt_trichotomy a b with h | h | h
    · simp [h, ne_of_lt h]
    · subst h
      simp [lt_irrefl, charsCmp_eq_iff (a := as) (b := bs)]
    · simp [h, lt_asymm h, (ne_of_lt h).symm]

theorem charsCmp_lt_trans : ∀ {a b c : List Char},
    charsCmp a b = .lt → charsCmp b c = .lt → charsCmp a c = .lt
  | [], [], _, h₁, _ => by simp [charsCmp] at h₁
  | [], _ :: _, [], _, h₂ => by simp [charsCmp] at h₂
  | [], _ :: _, _ :: _, _, _ => by simp [charsCmp]
  | _ :: _, [], _, h₁, _ => by simp [charsCmp] at h₁
  | _ :: _, _ :: _, [], _, h₂ => by simp [charsCmp] at h₂
  | a :: as, b :: bs, c :: cs, h₁, h₂ => by
    simp only [charsCmp] at h₁ h₂ ⊢
    rcases lt_trichotomy a b with hab | hab | hab
    · rcases lt_trichotomy b c with hbc | hbc | hbc
      · simp [lt_trans hab hbc]
      · subst hbc
        simp [hab]
      · rw [if_neg (lt_asymm hbc), if_pos hbc] at h₂
        exact absurd h₂ (by simp)
    · subst hab
      rcases lt_trichotomy a c with hbc | hbc | hbc
      · simp [hbc]
      · subst hbc
        rw [if_neg (lt_irrefl a), if_neg (lt_irrefl a)] at h₁ h₂ ⊢
        exact charsCmp_lt_trans h₁ h₂
      · rw [if_neg (lt_asymm hbc), if_pos hbc] at h₂
        exact absurd h₂ (by simp)
    · rw [if_neg (lt_asymm hab), if_pos hab] at h₁
      exact absurd h₁ (by simp)

theorem charsCmp_laws : CmpLaws charsCmp :=
  cmpLaws_of_eq_iff charsCmp_swap charsCmp_lt_trans charsCmp_eq_iff

theorem strCmp_eq_iff {s t : String} : strCmp s t = .eq ↔ s = t := by
  unfold strCmp
  rw [charsCmp_eq_iff]
  refine ⟨fun h => ?_, fun h => by rw [h]⟩
  cases s
  cases t
  exact congrArg String.mk h

theorem strCmp_laws : CmpLaws strCmp :=
  cmpLaws_of_eq_iff (fun s t => charsCmp_laws.swap_eq s.data t.data)
    (fun h₁ h₂ => charsCmp_laws.lt_trans h₁ h₂) strCmp_eq_iff

theorem nvalCmp_swap (a b : NVal) : nvalCmp b a = (nvalCmp a b).swap := by
  cases a <;> cases b <;> first
    | rfl
    | exact ltCmp_swap _ _

theorem nvalCmp_eq_iff {a b : NVal} : nvalCmp a b = .eq ↔ a = b := by
  cases a <;> cases b <;> simp [nvalCmp, ltCmp_eq_iff]

theorem nvalCmp_lt_trans {a b c : NVal} :
    nvalCmp a b = .lt → nvalCmp b c = .lt → nvalCmp a c = .lt := by
  cases a <;> cases b <;> cases c <;> simp [nvalCmp] <;>
    intro h₁ h₂ <;>
    exact ltCmp_lt_iff.mpr (lt_trans (ltCmp_lt_iff.mp h₁) (ltCmp_lt_iff.mp h₂))

theorem nvalCmp_laws : CmpLaws nvalCmp :=
  cmpLaws_of_eq_iff nvalCmp_swap nvalCmp_lt_trans nvalCmp_eq_iff

theorem svalCmp_swap (a b : SVal) : svalCmp b a = (svalCmp a b).swap := by
  cases a <;> cases b <;> first
    | rfl
    | exact strCmp_laws.swap_eq _ _

theorem svalCmp_eq_iff {a b : SVal} : svalCmp a b = .eq ↔ a = b := by
  cases a <;> cases b <;> simp [svalCmp, strCmp_eq_iff]

theorem svalCmp_lt_trans {a b c : SVal} :
    svalCmp a b = .lt → svalCmp b c = .lt → svalCmp a c = .lt := by
  cases a <;> cases b <;> cases c <;> simp [svalCmp] <;>
    intro h₁ h₂ <;>
    exact strCmp_laws.lt_trans h₁ h₂

theorem svalCmp_laws : CmpLaws svalCmp :=
  cmpLaws_of_eq_iff svalCmp_swap svalCmp_lt_trans svalCmp_eq_iff

theorem albumCmp_laws : CmpLaws albumCmp :=
  (nvalCmp_laws.pull colDisk).chain
    ((nvalCmp_laws.pull colTrack).chain
      ((svalCmp_laws.pull colFile).chain (svalCmp_laws.pull colTitle)))

theorem taxKeyCmp_laws : CmpLaws (fun (a b : String × TNode) => strCmp a.1 b.1) :=
  strCmp_laws.pull Prod.fst

/-! ## The two sorters -/

theorem sortAlbumFiles_sorted (l : List (String × Record)) :
    List.Sorted albumLe (sortAlbumFiles l) := by
  unfold sortAlbumFiles
  exact @List.sorted_insertionSort _ albumLe _
    ⟨fun a b => albumCmp_laws.le_total a b⟩
    ⟨fun a b c h₁ h₂ => albumCmp_laws.le_trans h₁ h₂⟩ l

theorem sortAlbumFiles_perm (l : List (String × Record)) :
    (sortAlbumFiles l).Perm l :=
  List.perm_insertionSort _ _

theorem sortTaxonomyItems_sorted (l : List (String × TNode)) :
    List.Sorted taxKeyLe (sortTaxonomyItems l) := by
  unfold sortTaxonomyItems
  exact @List.sorted_insertionSort _ taxKeyLe _
    ⟨fun a b => taxKeyCmp_laws.le_total a b⟩
    ⟨fun a b c h₁ h₂ => taxKeyCmp_laws.le_trans h₁ h₂⟩ l

theorem sortTaxonomyItems_perm (l : List (String × TNode)) :
    (sortTaxonomyItems l).Perm l :=
  List.perm_insertionSort _ _

/-! ## Association list lemmas -/

theorem lookup_cons_self {α : Type} (k : String) (v : α) (l : List (String × α)) :
    ((k, v) :: l).lookup k = some v := by
  simp [List.lookup]

theorem lookup_cons_ne {α : Type} {j k : String} (v : α) (l : List (String × α))
    (h : j ≠ k) : ((k, v) :: l).lookup j = l.lookup j := by
  simp [List.lookup, show (j == k) = false from by simp [h]]

theorem lookup_mem {α : Type} : ∀ {l : List (String × α)} {k : String} {v : α},
    l.lookup k = some v → (k, v) ∈ l
  | [], _, _, h => by simp [List.lookup] at h
  | (k₁, v₁) :: rest, k, v, h => by
    by_cases e : k = k₁
    · subst e
      rw [lookup_cons_self] at h
      obtain rfl := Option.some_inj.mp h
      exact List.mem_cons_self _ _
    · rw [lookup_cons_ne _ _ e] at h
      exact List.mem_cons_of_mem _ (lookup_mem h)

theorem lookup_none_of_not_mem_keys {α : Type} :
    ∀ {l : List (String × α)} {k : String}, k ∉ l.map Prod.fst → l.lookup k = none
  | [], _, _ => rfl
  | (k₁, v₁) :: rest, k, h => by
    simp only [List.map_cons, List.mem_cons] at h
    push_neg at h
    rw [lookup_cons_ne _ _ h.1]
    exact lookup_none_of_not_mem_keys h.2

theorem not_mem_keys_of_lookup_none {α : Type} :
    ∀ {l : List (String × α)} {k : String}, l.lookup k = none → k ∉ l.map Prod.fst
  | [], _, _ => by simp
  | (k₁, v₁) :: rest, k, h => by
    by_cases e : k = k₁
    · subst e
      rw [lookup_cons_self] at h
      exact absurd h (by simp)
    · rw [lookup_cons_ne _ _ e] at h
      simp only [List.map_cons, List.mem_cons]
      push_neg
      exact ⟨e, not_mem_keys_of_lookup_none h⟩

theorem lookup_append {α : Type} :
    ∀ (l₁ l₂ : List (String × α)) (k : String),
      (l₁ ++ l₂).lookup k = (l₁.lookup k).or (l₂.lookup k)
  | [], _, _ => rfl
  | (k₁, v₁) :: rest, l₂, k => by
    by_cases e : k = k₁
    · subst e
      rw [List.cons_append, lookup_cons_self, lookup_cons_self]
      rfl
    · rw [List.cons_append, lookup_cons_ne _ _ e, lookup_cons_ne _ _ e]
      exact lookup_append rest l₂ k

theorem setKey_lookup_self {α : Type} (m : List (String × α)) (k : String) (v : α) :
    (setKey m k v).lookup k = some v := by
  unfold setKey
  by_cases h : (m.lookup k).isSome
  · rw [if_pos h]
    induction m with
    | nil => simp [List.lookup] at h
    | cons kv rest ih =>
      rcases kv with ⟨k₁, v₁⟩
      simp only [List.map_cons]
      by_cases e : k₁ = k
      · rw [if_pos e, lookup_cons_self]
      · have e' : k ≠ k₁ := fun hk => e hk.symm
        rw [if_neg e, lookup_cons_ne _ _ e']
        rw [lookup_cons_ne _ _ e'] at h
        exact ih h
  · rw [if_neg h, lookup_append]
    rw [Option.not_isSome_iff_eq_none] at h
    rw [h]
    show List.lookup k [(k, v)] = some v
    exact lookup_cons_self k v []

theorem setKey_lookup_ne {α : Type} (m : List (String × α)) (k : String) (v : α)
    {j : String} (hj : j ≠ k) : (setKey m k v).lookup j = m.lookup j := by
  unfold setKey
  by_cases h : (m.lookup k).isSome
  · rw [if_pos h]
    clear h
    induction m with
    | nil => rfl
    | cons kv rest ih =>
      rcases kv with ⟨k₁, v₁⟩
      simp only [List.map_cons]
      by_cases e : k₁ = k
      · subst e
        rw [if_pos rfl, lookup_cons_ne _ _ hj, lookup_cons_ne _ _ hj]
        exact ih
      · rw [if_neg e]
        by_cases e₂ : j = k₁
        · subst e₂
          rw [lookup_cons_self, lookup_cons_self]
        · rw [lookup_cons_ne _ _ e₂, lookup_cons_ne _ _ e₂]
          exact ih
  · rw [if_neg h, lookup_append]
    have hnone : List.lookup j [(k, v)] = none := by
      rw [lookup_cons_ne _ _ hj]
      rfl
    rw [hnone, Option.or_none]

theorem setKey_mem {α : Type} {m : List (String × α)} {k : String} {v : α}
    {kv' : String × α} (h : kv' ∈ setKey m k v) : kv' = (k, v) ∨ kv' ∈ m := by
  unfold setKey at h
  by_cases hp : (m.lookup k).isSome
  · rw [if_pos hp] at h
    rcases List.mem_map.mp h with ⟨kv, hmem, heq⟩
    by_cases e : kv.1 = k
    · rw [if_pos e] at heq
      exact Or.inl heq.symm
    · rw [if_neg e] at heq
      exact Or.inr (heq ▸ hmem)
  · rw [if_neg hp] at h
    rcases List.mem_append.mp h with h' | h'
    · exact Or.inr h'
    · exact Or.inl (List.mem_singleton.mp h')

theorem setKey_keys_of_present {α : Type} {m : List (String × α)} {k : String} (v : α)
    (h : (m.lookup k).isSome) : (setKey m k v).map Prod.fst = m.map Prod.fst := by
  unfold setKey
  rw [if_pos h, List.map_map]
  refine List.map_congr_left ?_
  intro kv _
  by_cases e : kv.1 = k
  · simp only [Function.comp_apply, if_pos e]
    exact e.symm
  · simp only [Function.comp_apply, if_neg e]

theorem setKey_keys_nodup {α : Type} {m : List (String × α)} {k : String} {v : α}
    (h : (m.map Prod.fst).Nodup) : ((setKey m k v).map Prod.fst).Nodup := by
  by_cases hp : (m.lookup k).isSome
  · rw [setKey_keys_of_present v hp]
    exact h
  · unfold setKey
    rw [if_neg hp, List.map_append]
    refine List.nodup_append.mpr ⟨h, List.nodup_singleton _, ?_⟩
    intro a ha hb
    rw [Option.not_isSome_iff_eq_none] at hp
    have hk : a = k := by simpa using hb
    subst hk
    exact not_mem_keys_of_lookup_none hp ha

theorem mem_filter_keys_subset {α : Type} {m : List (String × α)} {p : String × α → Bool}
    {k : String} (h : k ∈ (m.filter p).map Prod.fst) : k ∈ m.map Prod.fst := by
  rcases List.mem_map.mp h with ⟨kv, hkv, hfst⟩
  exact hfst ▸ List.mem_map_of_mem Prod.fst (List.mem_filter.mp hkv).1

theorem lookup_filter_of_nodup {α : Type} :
    ∀ {m : List (String × α)}, (m.map Prod.fst).Nodup →
      ∀ (p : String × α → Bool) {k : String} {v : α}, m.lookup k = some v →
        (m.filter p).lookup k = if p (k, v) then some v else none
  | [], _, _, _, _, h => by simp [List.lookup] at h
  | (k₁, v₁) :: rest, hnd, p, k, v, h => by
    rw [List.map_cons, List.nodup_cons] at hnd
    by_cases e : k = k₁
    · subst e
      rw [lookup_cons_self] at h
      obtain rfl := Option.some_inj.mp h
      by_cases hp : p (k, v₁) = true
      · rw [List.filter_cons, if_pos hp, lookup_cons_self, if_pos hp]
      · rw [List.filter_cons, if_neg hp, if_neg hp]
        refine lookup_none_of_not_mem_keys ?_
        intro hmem
        exact hnd.1 (mem_filter_keys_subset hmem)
    · have hlook : rest.lookup k = some v := by
        rw [lookup_cons_ne _ _ e] at h
        exact h
      have ih := lookup_filter_of_nodup hnd.2 p hlook
      by_cases hp : p (k₁, v₁) = true
      · rw [List.filter_cons, if_pos hp, lookup_cons_ne _ _ e]
        exact ih
      · rw [List.filter_cons, if_neg hp]
        exact ih

theorem nodup_keys_eq {α : Type} :
    ∀ {m : List (String × α)}, (m.map Prod.fst).Nodup →
      ∀ {k : String} {v₁ v₂ : α}, (k, v₁) ∈ m → (k, v₂) ∈ m → v₁ = v₂
  | [], _, _, _, _, h₁, _ => by simp at h₁
  | (k₁, w) :: rest, hnd, k, v₁, v₂, h₁, h₂ => by
    rw [List.map_cons, List.nodup_cons] at hnd
    rcases List.mem_cons.mp h₁ with e₁ | e₁ <;> rcases List.mem_cons.mp h₂ with e₂ | e₂
    · rw [Prod.mk.injEq] at e₁ e₂
      rw [e₁.2, e₂.2]
    · exfalso
      rw [Prod.mk.injEq] at e₁
      refine hnd.1 ?_
      rw [← e₁.1]
      exact List.mem_map.mpr ⟨(k, v₂), e₂, rfl⟩
    · exfalso
      rw [Prod.mk.injEq] at e₂
      refine hnd.1 ?_
      rw [← e₂.1]
      exact List.mem_map.mpr ⟨(k, v₁), e₁, rfl⟩
    · exact nodup_keys_eq hnd.2 e₁ e₂

/-! ## Scan orchestrator lemmas -/

theorem isFresh_iff {data : RecordMap} {f : String} {t : Nat} :
    isFresh data f t = true ↔ ∃ r, data.lookup f = some r ∧ r.mtime = some t := by
  unfold isFresh
  cases h : data.lookup f with
  | none => simp
  | some r =>
    simp only [decide_eq_true_eq]
    constructor
    · intro hm
      exact ⟨r, rfl, hm⟩
    · rintro ⟨r', hr', hm⟩
      obtain rfl := Option.some_inj.mp hr'
      exact hm

theorem isFresh_congr {d₁ d₂ : RecordMap} {f : String} (t : Nat)
    (h : d₁.lookup f = d₂.lookup f) : isFresh d₁ f t = isFresh d₂ f t := by
  unfold isFresh
  rw [h]

theorem processFile_fresh (extract : String → Except String TagPayload)
    (categories : List Category) (mtimeOf : String → Nat) (now : Nat) (force : Bool)
    {data : RecordMap} {f : String}
    (h : isFresh data f (mtimeOf f) = true) (hforce : force = false) :
    processFile extract categories mtimeOf now force data f = .ok (data, true) := by
  unfold processFile
  rw [if_pos ⟨h, by simp [hforce]⟩]

theorem processFile_stale_ok (extract : String → Except String TagPayload)
    (categories : List Category) (mtimeOf : String → Nat) (now : Nat) (force : Bool)
    {data : RecordMap} {f : String}
    (hstale : isFresh data f (mtimeOf f) = false ∨ force = true)
    {p : TagPayload} (hex : extract f = .ok p) :
    processFile extract categories mtimeOf now force data f =
      .ok (setKey data f (freshRecord p (getCategory f categories) f now (mtimeOf f)), false) := by
  unfold processFile
  rw [if_neg ?_, hex]
  rintro ⟨h₁, h₂⟩
  rcases hstale with h | h
  · rw [h] at h₁
    exact absurd h₁ (by simp)
  · exact h₂ h

theorem processFile_stale_err (extract : String → Except String TagPayload)
    (categories : List Category) (mtimeOf : String → Nat) (now : Nat) (force : Bool)
    {data : RecordMap} {f : String}
    (hstale : isFresh data f (mtimeOf f) = false ∨ force = true)
    {e : String} (hex : extract f = .error e) :
    processFile extract categories mtimeOf now force data f = .error e := by
  unfold processFile
  rw [if_neg ?_, hex]
  rintro ⟨h₁, h₂⟩
  rcases hstale with h | h
  · rw [h] at h₁
    exact absurd h₁ (by simp)
  · exact h₂ h

theorem processFile_lookup_ne (extract : String → Except String TagPayload)
    (categories : List Category) (mtimeOf : String → Nat) (now : Nat) (force : Bool)
    {data data' : RecordMap} {g : String} {sk : Bool}
    (h : processFile extract categories mtimeOf now force data g = .ok (data', sk))
    {f : String} (hf : f ≠ g) : data'.lookup f = data.lookup f := by
  unfold processFile at h
  by_cases hc : isFresh data g (mtimeOf g) = true ∧ ¬ force = true
  · rw [if_pos hc] at h
    rw [Except.ok.injEq, Prod.mk.injEq] at h
    rw [← h.1]
  · rw [if_neg hc] at h
    cases hex : extract g with
    | error e =>
      rw [hex] at h
      exact absurd h (by simp)
    | ok p =>
      rw [hex] at h
      simp only [Except.ok.injEq, Prod.mk.injEq] at h
      rw [← h.1]
      exact setKey_lookup_ne _ _ _ hf

theorem processFile_wf (extract : String → Except String TagPayload)
    (categories : List Category) (mtimeOf : String → Nat) (now : Nat) (force : Bool)
    {data data' : RecordMap} {g : String} {sk : Bool}
    (hwf : ∀ kv ∈ data, kv.2.file = none ∨ kv.2.file = some kv.1)
    (h : processFile extract categories mtimeOf now force data g = .ok (data', sk)) :
    ∀ kv ∈ data', kv.2.file = none ∨ kv.2.file = some kv.1 := by
  unfold processFile at h
  by_cases hc : isFresh data g (mtimeOf g) = true ∧ ¬ force = true
  · rw [if_pos hc] at h
    rw [Except.ok.injEq, Prod.mk.injEq] at h
    rw [← h.1]
    exact hwf
  · rw [if_neg hc] at h
    cases hex : extract g with
    | error e =>
      rw [hex] at h
      exact absurd h (by simp)
    | ok p =>
      rw [hex] at h
      simp only [Except.ok.injEq, Prod.mk.injEq] at h
      rw [← h.1]
      intro kv hkv
      rcases setKey_mem hkv with h' | h'
      · rw [h']
        exact Or.inr rfl
      · exact hwf kv h'

theorem processFile_nodup (extract : String → Except String TagPayload)
    (categories : List Category) (mtimeOf : String → Nat) (now : Nat) (force : Bool)
    {data data' : RecordMap} {g : String} {sk : Bool}
    (hnd : (data.map Prod.fst).Nodup)
    (h : processFile extract categories mtimeOf now force data g = .ok (data', sk)) :
    (data'.map Prod.fst).Nodup := by
  unfold processFile at h
  by_cases hc : isFresh data g (mtimeOf g) = true ∧ ¬ force = true
  · rw [if_pos hc] at h
    rw [Except.ok.injEq, Prod.mk.injEq] at h
    rw [← h.1]
    exact hnd
  · rw [if_neg hc] at h
    cases hex : extract g with
    | error e =>
      rw [hex] at h
      exact absurd h (by simp)
    | ok p =>
      rw [hex] at h
      simp only [Except.ok.injEq, Prod.mk.injEq] at h
      rw [← h.1]
      exact setKey_keys_nodup hnd

theorem processFiles_all_fresh (extract : String → Except String TagPayload)
    (categories : List Category) (mtimeOf : String → Nat) (now : Nat) :
    ∀ (files : List String) (data : RecordMap),
      (∀ f ∈ files, isFresh data f (mtimeOf f) = true) →
      processFiles extract categories mtimeOf now false data files = (data, 0)
  | [], _, _ => rfl
  | f :: rest, data, h => by
    have hf := h f (List.mem_cons_self _ _)
    have hrest := processFiles_all_fresh extract categories mtimeOf now rest data
      (fun g hg => h g (List.mem_cons_of_mem _ hg))
    simp [processFiles, processFile_fresh extract categories mtimeOf now false hf rfl, hrest]

theorem processFiles_lookup_of_not_mem (extract : String → Except String TagPayload)
    (categories : List Category) (mtimeOf : String → Nat) (now : Nat) (force : Bool) :
    ∀ (files : List String) (data : RecordMap) {f : String}, f ∉ files →
      ((processFiles extract categories mtimeOf now force data files).1).lookup f =
        data.lookup f
  | [], _, _, _ => rfl
  | g :: rest, data, f, hf => by
    have hne : f ≠ g := fun e => hf (e ▸ List.mem_cons_self _ _)
    have hnr : f ∉ rest := fun hr => hf (List.mem_cons_of_mem _ hr)
    cases hpf : processFile extract categories mtimeOf now force data g with
    | ok res =>
      rcases res with ⟨data', sk⟩
      have ih := processFiles_lookup_of_not_mem extract categories mtimeOf now force rest
        data' hnr
      have hlook := processFile_lookup_ne extract categories mtimeOf now force hpf hne
      rcases hrec : processFiles extract categories mtimeOf now force data' rest with ⟨d₂, n₂⟩
      rw [hrec] at ih
      simp only [processFiles, hpf, hrec]
      simpa using ih.trans hlook
    | error e =>
      have ih := processFiles_lookup_of_not_mem extract categories mtimeOf now force rest
        (setKey data g (errRecord e)) hnr
      have hlook : (setKey data g (errRecord e)).lookup f = data.lookup f :=
        setKey_lookup_ne _ _ _ hne
      rcases hrec : processFiles extract categories mtimeOf now force
        (setKey data g (errRecord e)) rest with ⟨d₂, n₂⟩
      rw [hrec] at ih
      simp only [processFiles, hpf, hrec]
      simpa using ih.trans hlook

theorem processFiles_wf (extract : String → Except String TagPayload)
    (categories : List Category) (mtimeOf : String → Nat) (now : Nat) (force : Bool) :
    ∀ (files : List String) (data : RecordMap),
      (∀ kv ∈ data, kv.2.file = none ∨ kv.2.file = some kv.1) →
      ∀ kv ∈ (processFiles extract categories mtimeOf now force data files).1,
        kv.2.file = none ∨ kv.2.file = some kv.1
  | [], _, h => h
  | g :: rest, data, h => by
    cases hpf : processFile extract categories mtimeOf now force data g with
    | ok res =>
      rcases res with ⟨data', sk⟩
      have h' := processFile_wf extract categories mtimeOf now force h hpf
      have ih := processFiles_wf extract categories mtimeOf now force rest data' h'
      rcases hrec : processFiles extract categories mtimeOf now force data' rest with ⟨d₂, n₂⟩
      rw [hrec] at ih
      simp only [processFiles, hpf, hrec]
      simpa using ih
    | error e =>
      have h' : ∀ kv ∈ setKey data g (errRecord e),
          kv.2.file = none ∨ kv.2.file = some kv.1 := by
        intro kv hkv
        rcases setKey_mem hkv with h' | h'
        · rw [h']
          exact Or.inl rfl
        · exact h kv h'
      have ih := processFiles_wf extract categories mtimeOf now force rest
        (setKey data g (errRecord e)) h'
      rcases hrec : processFiles extract categories mtimeOf now force
        (setKey data g (errRecord e)) rest with ⟨d₂, n₂⟩
      rw [hrec] at ih
      simp only [processFiles, hpf, hrec]
      simpa using ih

theorem processFiles_nodup (extract : String → Except String TagPayload)
    (categories : List Category) (mtimeOf : String → Nat) (now : Nat) (force : Bool) :
    ∀ (files : List String) (data : RecordMap),
      (data.map Prod.fst).Nodup →
      (((processFiles extract categories mtimeOf now force data files).1).map Prod.fst).Nodup
  | [], _, h => h
  | g :: rest, data, h => by
    cases hpf : processFile extract categories mtimeOf now force data g with
    | ok res =>
      rcases res with ⟨data', sk⟩
      have h' := processFile_nodup extract categories mtimeOf now force h hpf
      have ih := processFiles_nodup extract categories mtimeOf now force rest data' h'
      rcases hrec : processFiles extract categories mtimeOf now force data' rest with ⟨d₂, n₂⟩
      rw [hrec] at ih
      simp only [processFiles, hpf, hrec]
      simpa using ih
    | error e =>
      have ih := processFiles_nodup extract categories mtimeOf now force rest
        (setKey data g (errRecord e)) (setKey_keys_nodup h)
      rcases hrec : processFiles extract categories mtimeOf now force
        (setKey data g (errRecord e)) rest with ⟨d₂, n₂⟩
      rw [hrec] at ih
      simp only [processFiles, hpf, hrec]
      simpa using ih

theorem processFiles_mtime_at (extract : String → Except String TagPayload)
    (categories : List Category) (mtimeOf : String → Nat) (now : Nat) (force : Bool) :
    ∀ (files : List String) (data : RecordMap) {f : String}, f ∈ files →
      ∃ r, ((processFiles extract categories mtimeOf now force data files).1).lookup f =
          some r ∧ (r.file = none ∨ r.mtime = some (mtimeOf f))
  | [], _, _, hf => absurd hf (List.not_mem_nil _)
  | g :: rest, data, f, hf => by
    by_cases hfr : f ∈ rest
    · cases hpf : processFile extract categories mtimeOf now force data g with
      | ok res =>
        rcases res with ⟨data', sk⟩
        have ih := processFiles_mtime_at extract categories mtimeOf now force rest data' hfr
        rcases hrec : processFiles extract categories mtimeOf now force data' rest with ⟨d₂, n₂⟩
        rw [hrec] at ih
        simp only [processFiles, hpf, hrec]
        simpa using ih
      | error e =>
        have ih := processFiles_mtime_at extract categories mtimeOf now force rest
          (setKey data g (errRecord e)) hfr
        rcases hrec : processFiles extract categories mtimeOf now force
          (setKey data g (errRecord e)) rest with ⟨d₂, n₂⟩
        rw [hrec] at ih
        simp only [processFiles, hpf, hrec]
        simpa using ih
    · have hfg : f = g := by
        rcases List.mem_cons.mp hf with h | h
        · exact h
        · exact absurd h hfr
      subst hfg
      cases hpf : processFile extract categories mtimeOf now force data f with
      | ok res =>
        rcases res with ⟨data', sk⟩
        have hstep : ∃ r, data'.lookup f = some r ∧
            (r.file = none ∨ r.mtime = some (mtimeOf f)) := by
          unfold processFile at hpf
          by_cases hc : isFresh data f (mtimeOf f) = true ∧ ¬ force = true
          · rw [if_pos hc] at hpf
            rw [Except.ok.injEq, Prod.mk.injEq] at hpf
            obtain ⟨r, hr, hm⟩ := isFresh_iff.mp hc.1
            refine ⟨r, ?_, Or.inr hm⟩
            rw [← hpf.1]
            exact hr
          · rw [if_neg hc] at hpf
            cases hex : extract f with
            | error e =>
              rw [hex] at hpf
              exact absurd hpf (by simp)
            | ok p =>
              rw [hex] at hpf
              simp only [Except.ok.injEq, Prod.mk.injEq] at hpf
              refine ⟨freshRecord p (getCategory f categories) f now (mtimeOf f), ?_, Or.inr rfl⟩
              rw [← hpf.1]
              exact setKey_lookup_self _ _ _
        obtain ⟨r, hr, hprop⟩ := hstep
        have huntouched := processFiles_lookup_of_not_mem extract categories mtimeOf now force
          rest data' hfr
        rcases hrec : processFiles extract categories mtimeOf now force data' rest with ⟨d₂, n₂⟩
        rw [hrec] at huntouched
        simp only [processFiles, hpf, hrec]
        refine ⟨r, ?_, hprop⟩
        simpa using huntouched.trans hr
      | error e =>
        have hself : (setKey data f (errRecord e)).lookup f = some (errRecord e) :=
          setKey_lookup_self _ _ _
        have huntouched := processFiles_lookup_of_not_mem extract categories mtimeOf now force
          rest (setKey data f (errRecord e)) hfr
        rcases hrec : processFiles extract categories mtimeOf now force
          (setKey data f (errRecord e)) rest with ⟨d₂, n₂⟩
        rw [hrec] at huntouched
        simp only [processFiles, hpf, hrec]
        refine ⟨errRecord e, ?_, Or.inl rfl⟩
        simpa using huntouched.trans hself

theorem processFiles_err_lookup (extract : String → Except String TagPayload)
    (categories : List Category) (mtimeOf : String → Nat) (now : Nat) (force : Bool) :
    ∀ (files : List String) (data : RecordMap) {f : String}, files.Nodup → f ∈ files →
      (isFresh data f (mtimeOf f) = false ∨ force = true) →
      ∀ {e : String}, extract f = .error e →
        ((processFiles extract categories mtimeOf now force data files).1).lookup f =
          some (errRecord e)
  | [], _, _, _, hf, _, _, _ => absurd hf (List.not_mem_nil _)
  | g :: rest, data, f, hnd, hf, hstale, e, hex => by
    rw [List.nodup_cons] at hnd
    by_cases hfg : f = g
    · subst hfg
      have hpf := processFile_stale_err extract categories mtimeOf now force hstale hex
      have huntouched := processFiles_lookup_of_not_mem extract categories mtimeOf now force
        rest (setKey data f (errRecord e)) hnd.1
      rcases hrec : processFiles extract categories mtimeOf now force
        (setKey data f (errRecord e)) rest with ⟨d₂, n₂⟩
      rw [hrec] at huntouched
      simp only [processFiles, hpf, hrec]
      simpa using huntouched.trans (setKey_lookup_self _ _ _)
    · have hfr : f ∈ rest := by
        rcases List.mem_cons.mp hf with h | h
        · exact absurd h hfg
        · exact h
      cases hpf : processFile extract categories mtimeOf now force data g with
      | ok res =>
        rcases res with ⟨data', sk⟩
        have hlook := processFile_lookup_ne extract categories mtimeOf now force hpf hfg
        have hstale' : isFresh data' f (mtimeOf f) = false ∨ force = true := by
          rcases hstale with h | h
          · exact Or.inl ((isFresh_congr _ hlook).trans h)
          · exact Or.inr h
        have ih := processFiles_err_lookup extract categories mtimeOf now force rest data'
          hnd.2 hfr hstale' hex
        rcases hrec : processFiles extract categories mtimeOf now force data' rest with ⟨d₂, n₂⟩
        rw [hrec] at ih
        simp only [processFiles, hpf, hrec]
        simpa using ih
      | error e' =>
        have hlook : (setKey data g (errRecord e')).lookup f = data.lookup f :=
          setKey_lookup_ne _ _ _ hfg
        have hstale' : isFresh (setKey data g (errRecord e')) f (mtimeOf f) = false ∨
            force = true := by
          rcases hstale with h | h
          · exact Or.inl ((isFresh_congr _ hlook).trans h)
          · exact Or.inr h
        have ih := processFiles_err_lookup extract categories mtimeOf now force rest
          (setKey data g (errRecord e')) hnd.2 hfr hstale' hex
        rcases hrec : processFiles extract categories mtimeOf now force
          (setKey data g (errRecord e')) rest with ⟨d₂, n₂⟩
        rw [hrec] at ih
        simp only [processFiles, hpf, hrec]
        simpa using ih

theorem processFiles_ok_lookup (extract : String → Except String TagPayload)
    (categories : List Category) (mtimeOf : String → Nat) (now : Nat) (force : Bool) :
    ∀ (files : List String) (data : RecordMap) {f : String}, files.Nodup → f ∈ files →
      (isFresh data f (mtimeOf f) = false ∨ force = true) →
      ∀ {p : TagPayload}, extract f = .ok p →
        ((processFiles extract categories mtimeOf now force data files).1).lookup f =
          some (freshRecord p (getCategory f categories) f now (mtimeOf f))
  | [], _, _, _, hf, _, _, _ => absurd hf (List.not_mem_nil _)
  | g :: rest, data, f, hnd, hf, hstale, p, hex => by
    rw [List.nodup_cons] at hnd
    by_cases hfg : f = g
    · subst hfg
      have hpf := processFile_stale_ok extract categories mtimeOf now force hstale hex
      have huntouched := processFiles_lookup_of_not_mem extract categories mtimeOf now force
        rest (setKey data f (freshRecord p (getCategory f categories) f now (mtimeOf f))) hnd.1
      rcases hrec : processFiles extract categories mtimeOf now force
        (setKey data f (freshRecord p (getCategory f categories) f now (mtimeOf f))) rest
        with ⟨d₂, n₂⟩
      rw [hrec] at huntouched
      simp only [processFiles, hpf, hrec]
      simpa using huntouched.trans (setKey_lookup_self _ _ _)
    · have hfr : f ∈ rest := by
        rcases List.mem_cons.mp hf with h | h
        · exact absurd h hfg
        · exact h
      cases hpf : processFile extract categories mtimeOf now force data g with
      | ok res =>
        rcases res with ⟨data', sk⟩
        have hlook := processFile_lookup_ne extract categories mtimeOf now force hpf hfg
        have hstale' : isFresh data' f (mtimeOf f) = false ∨ force = true := by
          rcases hstale with h | h
          · exact Or.inl ((isFresh_congr _ hlook).trans h)
          · exact Or.inr h
        have ih := processFiles_ok_lookup extract categories mtimeOf now force rest data'
          hnd.2 hfr hstale' hex
        rcases hrec : processFiles extract categories mtimeOf now force data' rest with ⟨d₂, n₂⟩
        rw [hrec] at ih
        simp only [processFiles, hpf, hrec]
        simpa using ih
      | error e' =>
        have hlook : (setKey data g (errRecord e')).lookup f = data.lookup f :=
          setKey_lookup_ne _ _ _ hfg
        have hstale' : isFresh (setKey data g (errRecord e')) f (mtimeOf f) = false ∨
            force = true := by
          rcases hstale with h | h
          · exact Or.inl ((isFresh_congr _ hlook).trans h)
          · exact Or.inr h
        have ih := processFiles_ok_lookup extract categories mtimeOf now force rest
          (setKey data g (errRecord e')) hnd.2 hfr hstale' hex
        rcases hrec : processFiles extract categories mtimeOf now force
          (setKey data g (errRecord e')) rest with ⟨d₂, n₂⟩
        rw [hrec] at ih
        simp only [processFiles, hpf, hrec]
        simpa using ih

/-! ## Existence-check lemmas -/

theorem badKeys_cons_good {present : String → Bool} {k : String} {r : Record}
    {rest : RecordMap} (h : badEntry present (k, r) = false) :
    badKeys present ((k, r) :: rest) = badKeys present rest := by
  unfold badKeys
  rw [List.filter_cons, if_neg (by simp [h])]

theorem badKeys_cons_bad {present : String → Bool} {k : String} {r : Record}
    {rest : RecordMap} (h : badEntry present (k, r) = true) :
    badKeys present ((k, r) :: rest) = k :: badKeys present rest := by
  unfold badKeys
  rw [List.filter_cons, if_pos h, List.map_cons]

theorem checkFELoop_ok_no_none (present : String → Bool) :
    ∀ (rest acc d' : RecordMap), checkFELoop present acc rest = .ok d' →
      ∀ kv ∈ rest, kv.2.file ≠ none
  | [], _, _, _ => by
    intro kv hkv
    exact absurd hkv (List.not_mem_nil _)
  | (k, r) :: rest, acc, d', h => by
    intro kv hkv
    cases hval : r.file with
    | none =>
      simp only [checkFELoop, hval] at h
      exact absurd h (by simp)
    | some f =>
      simp only [checkFELoop, hval] at h
      rcases List.mem_cons.mp hkv with he | he
      · rw [he]
        simp [hval]
      · by_cases hp : present f = true
        · rw [if_pos hp] at h
          exact checkFELoop_ok_no_none present rest acc d' h kv he
        · rw [if_neg hp] at h
          exact checkFELoop_ok_no_none present rest (delKey acc k) d' h kv he

theorem checkFELoop_characterization (present : String → Bool) :
    ∀ (rest acc : RecordMap), (∀ kv ∈ rest, kv.2.file ≠ none) →
      checkFELoop present acc rest =
        .ok (acc.filter fun kv => ! (badKeys present rest).contains kv.1)
  | [], acc, _ => by
    unfold checkFELoop
    have hpt : ∀ x ∈ acc, (fun kv => ! (badKeys present []).contains kv.1) x =
        (fun _ => true) x := fun x _ => rfl
    rw [List.filter_congr hpt, List.filter_true]
  | (k, r) :: rest, acc, hn => by
    have hrest : ∀ kv ∈ rest, kv.2.file ≠ none :=
      fun kv hkv => hn kv (List.mem_cons_of_mem _ hkv)
    cases hval : r.file with
    | none => exact absurd hval (hn (k, r) (List.mem_cons_self _ _))
    | some f =>
      by_cases hp : present f = true
      · simp only [checkFELoop, hval, if_pos hp]
        rw [checkFELoop_characterization present rest acc hrest]
        have hbe : badEntry present (k, r) = false := by simp [badEntry, hval, hp]
        rw [badKeys_cons_good hbe]
      · simp only [checkFELoop, hval, if_neg hp]
        rw [checkFELoop_characterization present rest (delKey acc k) hrest]
        have hp' : present f = false := by
          revert hp
          cases present f <;> simp
        have hbe : badEntry present (k, r) = true := by simp [badEntry, hval, hp']
        rw [badKeys_cons_bad hbe]
        congr 1
        unfold delKey
        rw [List.filter_filter]
        refine List.filter_congr ?_
        intro x _
        by_cases he : x.1 = k
        · simp [he, List.contains_cons]
        · simp [he, List.contains_cons]

theorem checkFELoop_error_of_none (present : String → Bool) :
    ∀ (rest acc : RecordMap), (∃ kv ∈ rest, kv.2.file = none) →
      checkFELoop present acc rest = .error ⟨"TypeError", none⟩
  | [], _, h => by
    rcases h with ⟨kv, hkv, _⟩
    exact absurd hkv (List.not_mem_nil _)
  | (k, r) :: rest, acc, h => by
    cases hval : r.file with
    | none => simp [checkFELoop, hval]
    | some f =>
      have hrest : ∃ kv ∈ rest, kv.2.file = none := by
        rcases h with ⟨kv, hkv, hnone⟩
        rcases List.mem_cons.mp hkv with he | he
        · exfalso
          rw [he] at hnone
          simp only at hnone
          rw [hval] at hnone
          exact absurd hnone (by simp)
        · exact ⟨kv, he, hnone⟩
      by_cases hp : present f = true
      · simp only [checkFELoop, hval, if_pos hp]
        exact checkFELoop_error_of_none present rest acc hrest
      · simp only [checkFELoop, hval, if_neg hp]
        exact checkFELoop_error_of_none present rest (delKey acc k) hrest

/-! ## Claim theorems for the scan orchestrator and the cache -/

/-- C1: For a record set whose records carry their own path (the data model's
invariant) with unique keys, over a file system in which every enumerated
file exists and nothing changes between two consecutive completed scan runs,
the second run performs zero extractor invocations and persists a record
mapping equal to the one the first run persisted (the serializer is
deterministic, so equal mappings give byte-identical caches); and the
freshness test is true iff a stored record exists for the path whose stored
modification time equals the current one exactly. -/
theorem freshness_idempotence
    (extract : String → Except String TagPayload) (categories : List Category)
    (mtimeOf : String → Nat) (present : String → Bool) (now₁ now₂ : Nat)
    (data₀ : RecordMap) (files : List String) (d₁ : RecordMap) (n₁ : Nat)
    (hwf : ∀ kv ∈ data₀, kv.2.file = some kv.1)
    (hnd : (data₀.map Prod.fst).Nodup)
    (hfiles : ∀ f ∈ files, present f = true)
    (hrun1 : scanRun extract categories mtimeOf present now₁ false data₀ files =
      .ok (d₁, n₁)) :
    scanRun extract categories mtimeOf present now₂ false d₁ files = .ok (d₁, 0) ∧
      ∀ (data : RecordMap) (f : String) (t : Nat),
        isFresh data f t = true ↔ ∃ r, data.lookup f = some r ∧ r.mtime = some t := by
  refine ⟨?_, fun data f t => isFresh_iff⟩
  rcases hpf : processFiles extract categories mtimeOf now₁ false data₀ files with ⟨d, n⟩
  simp only [scanRun, hpf] at hrun1
  cases hce : checkFileExistence present d with
  | error e =>
    rw [hce] at hrun1
    exact absurd hrun1 (by simp)
  | ok d' =>
    rw [hce] at hrun1
    rw [Except.ok.injEq, Prod.mk.injEq] at hrun1
    obtain ⟨hd, hn⟩ := hrun1
    rw [hd] at hce
    have hce' : checkFELoop present d d = .ok d₁ := hce
    have hnone := checkFELoop_ok_no_none present d d d₁ hce'
    have hwfd : ∀ kv ∈ d, kv.2.file = none ∨ kv.2.file = some kv.1 := by
      have h := processFiles_wf extract categories mtimeOf now₁ false files data₀
        (fun kv hkv => Or.inr (hwf kv hkv))
      rw [hpf] at h
      exact h
    have hgood : ∀ kv ∈ d, kv.2.file = some kv.1 := by
      intro kv hkv
      rcases hwfd kv hkv with h | h
      · exact absurd h (hnone kv hkv)
      · exact h
    have hndd : (d.map Prod.fst).Nodup := by
      have h := processFiles_nodup extract categories mtimeOf now₁ false files data₀ hnd
      rw [hpf] at h
      exact h
    have hchar := checkFELoop_characterization present d d hnone
    have hd₁ : d₁ = d.filter fun kv => ! (badKeys present d).contains kv.1 :=
      Except.ok.inj (hce'.symm.trans hchar)
    have hfresh : ∀ f ∈ files, isFresh d₁ f (mtimeOf f) = true := by
      intro f hfm
      obtain ⟨r, hr, hprop⟩ :=
        processFiles_mtime_at extract categories mtimeOf now₁ false files data₀ hfm
      rw [hpf] at hr
      have hr' : d.lookup f = some r := hr
      have hmem : (f, r) ∈ d := lookup_mem hr'
      have hfile : r.file = some f := hgood (f, r) hmem
      have hmt : r.mtime = some (mtimeOf f) := by
        rcases hprop with h | h
        · rw [hfile] at h
          exact absurd h (by simp)
        · exact h
      have hnotbad : (badKeys present d).contains f = false := by
        cases hcont : (badKeys present d).contains f
        · rfl
        · exfalso
          have hfmem : f ∈ badKeys present d := List.elem_iff.mp hcont
          unfold badKeys at hfmem
          rcases List.mem_map.mp hfmem with ⟨kv, hkvf, hfst⟩
          obtain ⟨k₀, r₀⟩ := kv
          simp only at hfst
          have hkvmem := (List.mem_filter.mp hkvf).1
          have hbad := (List.mem_filter.mp hkvf).2
          rw [hfst] at hkvmem
          have hr₀ : r₀ = r := nodup_keys_eq hndd hkvmem hmem
          rw [hfst, hr₀] at hbad
          unfold badEntry at hbad
          rw [hfile] at hbad
          simp only at hbad
          rw [hfiles f hfm] at hbad
          exact absurd hbad (by simp)
      have hlf := lookup_filter_of_nodup hndd
        (fun kv => ! (badKeys present d).contains kv.1) hr'
      rw [isFresh_iff]
      refine ⟨r, ?_, hmt⟩
      have hcondtrue : (fun kv : String × Record =>
          ! (badKeys present d).contains kv.1) (f, r) = true := by
        show (! (badKeys present d).contains f) = true
        rw [hnotbad]
        rfl
      rw [hd₁, hlf, if_pos hcondtrue]
    have hp₂ := processFiles_all_fresh extract categories mtimeOf now₂ files d₁ hfresh
    have hmemd₁ : ∀ kv ∈ d₁, kv ∈ d ∧ (! (badKeys present d).contains kv.1) = true := by
      intro kv hkv
      rw [hd₁] at hkv
      exact ⟨(List.mem_filter.mp hkv).1, (List.mem_filter.mp hkv).2⟩
    have hnone₁ : ∀ kv ∈ d₁, kv.2.file ≠ none :=
      fun kv hkv => hnone kv (hmemd₁ kv hkv).1
    have hfilter₁ : d₁.filter (badEntry present) = [] := by
      rw [List.filter_eq_nil_iff]
      intro kv hkv hbadkv
      obtain ⟨hkvd, hcont⟩ := hmemd₁ kv hkv
      have hin : kv.1 ∈ badKeys present d := by
        unfold badKeys
        exact List.mem_map.mpr ⟨kv, List.mem_filter.mpr ⟨hkvd, hbadkv⟩, rfl⟩
      have hcont' : (badKeys present d).contains kv.1 = true := List.elem_iff.mpr hin
      rw [hcont'] at hcont
      exact absurd hcont (by simp)
    have hbad₁ : badKeys present d₁ = [] := by
      unfold badKeys
      rw [hfilter₁]
      rfl
    have hce₂ : checkFileExistence present d₁ = .ok d₁ := by
      have h := checkFELoop_characterization present d₁ d₁ hnone₁
      rw [hbad₁] at h
      have hpt : ∀ x ∈ d₁, (fun kv => ! (List.contains ([] : List String) kv.1 : Bool)) x =
          (fun _ => true) x := fun x _ => rfl
      rw [List.filter_congr hpt, List.filter_true] at h
      exact h
    simp only [scanRun, hp₂, hce₂]

/-- C1 witness: a one-file library, an empty starting cache and a total
extractor; the first run extracts once, and the theorem applies to give an
idempotent second run. -/
theorem freshness_idempotence_witness :
    ((∀ kv ∈ ([] : RecordMap), kv.2.file = some kv.1) ∧
      ((([] : RecordMap)).map Prod.fst).Nodup ∧
      (∀ f ∈ ["m/a.mp3"], (fun _ => true) f = true) ∧
      scanRun c1Extract [] (fun _ => 7) (fun _ => true) 5 false [] ["m/a.mp3"] =
        .ok ([("m/a.mp3", c1Rec)], 1)) ∧
    (scanRun c1Extract [] (fun _ => 7) (fun _ => true) 6 false
        [("m/a.mp3", c1Rec)] ["m/a.mp3"] = .ok ([("m/a.mp3", c1Rec)], 0) ∧
      ∀ (data : RecordMap) (f : String) (t : Nat),
        isFresh data f t = true ↔ ∃ r, data.lookup f = some r ∧ r.mtime = some t) :=
  ⟨⟨by simp, by simp, by simp, by decide⟩,
    freshness_idempotence c1Extract [] (fun _ => 7) (fun _ => true) 5 6 [] ["m/a.mp3"]
      [("m/a.mp3", c1Rec)] 1 (by simp) (by simp) (by simp) (by decide)⟩

/-- C10: a record set that contains an error-only record makes the pruning
pass throw: when one file of the batch fails extraction (and is not skipped
as fresh), the whole run ends with the `TypeError` raised by
`checkFileExistence` reading the absent `file` field, instead of completing
and pruning. -/
theorem error_record_aborts_pruning
    (extract : String → Except String TagPayload) (categories : List Category)
    (mtimeOf : String → Nat) (present : String → Bool) (now : Nat) (force : Bool)
    (data₀ : RecordMap) (files : List String)
    (hnd : files.Nodup) (f : String) (hf : f ∈ files)
    (hstale : isFresh data₀ f (mtimeOf f) = false ∨ force = true)
    (e : String) (hex : extract f = .error e) :
    scanRun extract categories mtimeOf present now force data₀ files =
      .error ⟨"TypeError", none⟩ := by
  rcases hpf : processFiles extract categories mtimeOf now force data₀ files with ⟨d, n⟩
  have hlook := processFiles_err_lookup extract categories mtimeOf now force files data₀
    hnd hf hstale hex
  rw [hpf] at hlook
  have hlook' : d.lookup f = some (errRecord e) := hlook
  have hmem : (f, errRecord e) ∈ d := lookup_mem hlook'
  have hcfe : checkFileExistence present d = .error ⟨"TypeError", none⟩ :=
    checkFELoop_error_of_none present d d ⟨(f, errRecord e), hmem, rfl⟩
  simp only [scanRun, hpf, hcfe]

/-- C10 witness: a two-file batch whose first file fails extraction; the run
aborts with the TypeError. -/
theorem error_record_aborts_pruning_witness :
    (["bad.mp3", "ok.mp3"].Nodup ∧ "bad.mp3" ∈ ["bad.mp3", "ok.mp3"] ∧
      (isFresh [] "bad.mp3" 7 = false ∨ false = true) ∧
      (fun g => if g = "bad.mp3" then (.error "Error: boom" : Except String TagPayload)
        else .ok ⟨[], [], []⟩) "bad.mp3" = .error "Error: boom") ∧
    scanRun (fun g => if g = "bad.mp3" then .error "Error: boom" else .ok ⟨[], [], []⟩)
      [] (fun _ => 7) (fun _ => true) 5 false [] ["bad.mp3", "ok.mp3"] =
      .error ⟨"TypeError", none⟩ :=
  ⟨⟨by decide, by decide, by decide, by decide⟩,
    error_record_aborts_pruning
      (fun g => if g = "bad.mp3" then .error "Error: boom" else .ok ⟨[], [], []⟩)
      [] (fun _ => 7) (fun _ => true) 5 false [] ["bad.mp3", "ok.mp3"]
      (by decide) "bad.mp3" (by decide) (by decide) "Error: boom" (by decide)⟩

/-- C6 counterexample: the claim says corruption of the persisted blob in any
form yields the empty mapping without error, but a blob that is not valid
gzip data makes `readCache` rethrow the decompression error (its `catch`
covers only `ENOENT` and `SyntaxError`). -/
theorem readCache_corrupt_blob_raises :
    readCache CacheFile.corruptBlob = .error ⟨"Error", some "Z_DATA_ERROR"⟩ := rfl

/-- C6 as amended: a missing cache file or a blob whose decompressed content
fails to parse is treated as the empty mapping and never fails the caller,
and a well-formed blob loads exactly its data; decompression-level corruption
is the one form that propagates. -/
theorem readCache_recovery :
    readCache CacheFile.missing = .ok [] ∧
      readCache (CacheFile.blob .malformed) = .ok [] ∧
      ∀ d, readCache (CacheFile.blob (.wellFormed d)) = .ok d :=
  ⟨rfl, rfl, fun _ => rfl⟩

/-- C7: in a batch scan, a file whose extraction fails ends up with exactly
the error-only record holding the stringified reason, while every other
stale file of the batch whose extraction succeeds ends up with its full
fresh record — the failure is caught per file and never aborts or affects
the rest of the batch (the fold is total by construction). -/
theorem per_file_error_isolation
    (extract : String → Except String TagPayload) (categories : List Category)
    (mtimeOf : String → Nat) (now : Nat) (force : Bool)
    (data : RecordMap) (files : List String) (hnd : files.Nodup)
    (f : String) (hf : f ∈ files)
    (hstale : isFresh data f (mtimeOf f) = false ∨ force = true) :
    (∀ e, extract f = .error e →
      ((processFiles extract categories mtimeOf now force data files).1).lookup f =
        some (errRecord e)) ∧
    (∀ p, extract f = .ok p →
      ((processFiles extract categories mtimeOf now force data files).1).lookup f =
        some (freshRecord p (getCategory f categories) f now (mtimeOf f))) :=
  ⟨fun _ he =>
      processFiles_err_lookup extract categories mtimeOf now force files data hnd hf hstale he,
    fun _ hp =>
      processFiles_ok_lookup extract categories mtimeOf now force files data hnd hf hstale hp⟩

/-- C7 witness: a two-file batch whose first file fails extraction; applied
once to the failing file and once to the succeeding one. -/
theorem per_file_error_isolation_witness :
    (["bad.mp3", "ok.mp3"].Nodup ∧ "bad.mp3" ∈ ["bad.mp3", "ok.mp3"] ∧
      (isFresh [] "bad.mp3" 7 = false ∨ false = true) ∧
      "ok.mp3" ∈ ["bad.mp3", "ok.mp3"] ∧
      (isFresh [] "ok.mp3" 7 = false ∨ false = true)) ∧
    ((∀ e, c7Extract "bad.mp3" = .error e →
      ((processFiles c7Extract [] (fun _ => 7) 5 false [] ["bad.mp3", "ok.mp3"]).1).lookup
        "bad.mp3" = some (errRecord e)) ∧
     (∀ p, c7Extract "bad.mp3" = .ok p →
      ((processFiles c7Extract [] (fun _ => 7) 5 false [] ["bad.mp3", "ok.mp3"]).1).lookup
        "bad.mp3" = some (freshRecord p (getCategory "bad.mp3" []) "bad.mp3" 5 7))) ∧
    ((∀ e, c7Extract "ok.mp3" = .error e →
      ((processFiles c7Extract [] (fun _ => 7) 5 false [] ["bad.mp3", "ok.mp3"]).1).lookup
        "ok.mp3" = some (errRecord e)) ∧
     (∀ p, c7Extract "ok.mp3" = .ok p →
      ((processFiles c7Extract [] (fun _ => 7) 5 false [] ["bad.mp3", "ok.mp3"]).1).lookup
        "ok.mp3" = some (freshRecord p (getCategory "ok.mp3" []) "ok.mp3" 5 7))) :=
  ⟨⟨by decide, by decide, by decide, by decide, by decide⟩,
    per_file_error_isolation c7Extract [] (fun _ => 7) 5 false [] ["bad.mp3", "ok.mp3"]
      (by decide) "bad.mp3" (by decide) (by decide),
    per_file_error_isolation c7Extract [] (fun _ => 7) 5 false [] ["bad.mp3", "ok.mp3"]
      (by decide) "ok.mp3" (by decide) (by decide)⟩

/-! ## Taxonomy value lemmas -/

theorem taxLookup_eq_spec (tags : Tags) (h : ∀ kv ∈ tags, isAttrShape kv.2 = true) :
    ∀ parts : List String,
      taxLookup tags parts =
        match parts.findSome? (fun k => (tags.lookup k).bind specRankedValue) with
        | some v => v
        | none => .str NONE
  | [] => rfl
  | ki :: rest => by
    rw [List.findSome?_cons]
    cases hlv : tags.lookup ki with
    | none =>
      simp only [taxLookup, hlv, Option.none_bind]
      exact taxLookup_eq_spec tags h rest
    | some v =>
      have hshape := h (ki, v) (lookup_mem hlv)
      cases v with
      | str s =>
        by_cases hs : s = ""
        · subst hs
          simp only [taxLookup, hlv, Option.some_bind, specRankedValue, if_pos rfl,
            ne_eq, not_true_eq_false, if_false]
          exact taxLookup_eq_spec tags h rest
        · simp only [taxLookup, hlv, Option.some_bind, specRankedValue, if_neg hs, ne_eq]
          rw [if_pos hs]
      | arr l =>
        cases l with
        | nil =>
          simp only [taxLookup, hlv, Option.some_bind, specRankedValue, List.head?_nil]
          exact taxLookup_eq_spec tags h rest
        | cons hd tl =>
          by_cases hhd : hd = ""
          · subst hhd
            simp only [taxLookup, hlv, Option.some_bind, specRankedValue, List.head?_cons,
              ne_eq, not_true_eq_false, if_false, if_pos rfl]
            exact taxLookup_eq_spec tags h rest
          · simp only [taxLookup, hlv, Option.some_bind, specRankedValue, List.head?_cons,
              ne_eq, if_neg hhd]
            rw [if_pos hhd]
      | idx no =>
        exact absurd hshape (by simp [isAttrShape])

/-- C4: for every attribute mapping whose values have the spec's shapes
(scalars or ordered sequences) and every classification key, the computed
grouping value is exactly the spec's first-ranked-non-empty value with the
ungrouped sentinel as fallback; in particular a record with only `B = "x"`
groups identically under the key `A__or__B` to a record with only
`A = "x"`. -/
theorem getTaxonomyValue_spec (tags : Tags) (key : String)
    (h : ∀ kv ∈ tags, isAttrShape kv.2 = true) :
    getTaxonomyValue tags key = specGroupValue tags key ∧
      getTaxonomyValue [("B", .str "x")] "A__or__B" =
        getTaxonomyValue [("A", .str "x")] "A__or__B" := by
  refine ⟨?_, by decide⟩
  unfold getTaxonomyValue specGroupValue
  exact taxLookup_eq_spec tags h _

/-- C4 witness: applied to the mapping holding only `B = "x"`. -/
theorem getTaxonomyValue_spec_witness :
    (∀ kv ∈ [("B", TagVal.str "x")], isAttrShape kv.2 = true) ∧
      (getTaxonomyValue [("B", .str "x")] "A__or__B" =
          specGroupValue [("B", .str "x")] "A__or__B" ∧
        getTaxonomyValue [("B", .str "x")] "A__or__B" =
          getTaxonomyValue [("A", .str "x")] "A__or__B") :=
  ⟨by decide, getTaxonomyValue_spec [("B", .str "x")] "A__or__B" (by decide)⟩

/-! ## Taxonomy tree lemmas -/

theorem keysAscB_of_sorted : ∀ {l : List (String × TNode)},
    List.Sorted taxKeyLe l → keysAscB l = true
  | [], _ => rfl
  | [_], _ => rfl
  | a :: b :: rest, h => by
    rw [List.sorted_cons] at h
    have hab : taxKeyLe a b := h.1 b (List.mem_cons_self _ _)
    have htail := keysAscB_of_sorted h.2
    cases e : strCmp a.1 b.1 with
    | lt => simp [keysAscB, e, htail]
    | eq => simp [keysAscB, e, htail]
    | gt => exact absurd e hab

theorem nodesSorted_eq_all : ∀ l : List (String × TNode),
    nodesSorted l = l.all fun kv => keysAscB kv.2.children && nodesSorted kv.2.children
  | [] => by simp [nodesSorted]
  | (k, TNode.mk a b c d ch fs tg) :: rest => by
    simp only [nodesSorted, List.all_cons]
    rw [← nodesSorted_eq_all rest]
    rfl

theorem nodesSorted_perm {l₁ l₂ : List (String × TNode)} (h : l₁.Perm l₂) :
    nodesSorted l₁ = nodesSorted l₂ := by
  rw [nodesSorted_eq_all l₁, nodesSorted_eq_all l₂]
  rw [Bool.eq_iff_iff, List.all_eq_true, List.all_eq_true]
  constructor
  · intro ha x hx
    exact ha x (h.mem_iff.mpr hx)
  · intro ha x hx
    exact ha x (h.mem_iff.mp hx)

/-- C3 as amended: at every branch level strictly below the returned root of
a tree built by `collectMediaLibraryTaxonomy`, the sibling collections are
in ascending key order (the sentinel ordering by its literal string form);
the root level itself is left in first-encounter order. -/
theorem collect_sorted_below_root :
    ∀ (rem : List String) (df : List (String × Record)) (tk : String),
      nodesSorted (collectMediaLibraryTaxonomy df tk rem) = true
  | [], df, tk => by
    rw [nodesSorted_eq_all, List.all_eq_true]
    intro kv hkv
    rcases List.mem_map.mp hkv with ⟨g, _, hkveq⟩
    rw [← hkveq]
    show (keysAscB ((g.1, leafNode tk g.2.1 g.2.2) : String × TNode).2.children &&
      nodesSorted ((g.1, leafNode tk g.2.1 g.2.2) : String × TNode).2.children) = true
    have hacc : ((g.1, leafNode tk g.2.1 g.2.2) : String × TNode).2.children = [] := rfl
    rw [hacc]
    simp [nodesSorted, keysAscB]
  | tk' :: rest', df, tk => by
    rw [nodesSorted_eq_all, List.all_eq_true]
    intro kv hkv
    rcases List.mem_map.mp hkv with ⟨g, _, hkveq⟩
    rw [← hkveq]
    show (keysAscB ((g.1, TNode.mk tk g.2.1 (decide (g.2.1 = TagVal.str NONE)) false
        (sortTaxonomyItems (collectMediaLibraryTaxonomy g.2.2 tk' rest')) [] none) :
        String × TNode).2.children &&
      nodesSorted ((g.1, TNode.mk tk g.2.1 (decide (g.2.1 = TagVal.str NONE)) false
        (sortTaxonomyItems (collectMediaLibraryTaxonomy g.2.2 tk' rest')) [] none) :
        String × TNode).2.children) = true
    have hacc : ((g.1, TNode.mk tk g.2.1 (decide (g.2.1 = TagVal.str NONE)) false
        (sortTaxonomyItems (collectMediaLibraryTaxonomy g.2.2 tk' rest')) [] none) :
        String × TNode).2.children =
        sortTaxonomyItems (collectMediaLibraryTaxonomy g.2.2 tk' rest') := rfl
    rw [hacc, Bool.and_eq_true]
    refine ⟨keysAscB_of_sorted (sortTaxonomyItems_sorted _), ?_⟩
    rw [nodesSorted_perm (sortTaxonomyItems_perm _)]
    exact collect_sorted_below_root rest' g.2.2 tk'

/-- C3 counterexample: for the primary category `c3Cat` over `c3Data`, the
root level of the returned tree is in first-encounter order `b, a` — not
ascending — so the claim that every branch level including the root is
sorted fails. -/
theorem collect_root_unsorted :
    (primaryCategoryItems c3Cat c3Data).map allLevelsSorted = some false := by decide

/-- C5: every node produced at the leaf level of the taxonomy builder has its
members sorted by the composite key (container/disk index, then item/track
index, then path, then title, ascending), is marked an end node, and carries
as representative attributes exactly the first sorted member's merged
attributes with `title`, `track` and `disk` removed — taken from that single
member only. -/
theorem collect_leaf_members (df : List (String × Record)) (tk : String) :
    ∀ kn ∈ collectMediaLibraryTaxonomy df tk [],
      List.Sorted albumLe kn.2.files ∧
        kn.2.tags = kn.2.files.head?.map
          (fun fe => omitKeys ["title", "track", "disk"] (mergedTags fe.2)) ∧
        kn.2.isEndNode = true := by
  intro kn hkn
  rcases List.mem_map.mp hkn with ⟨g, _, hkneq⟩
  rw [← hkneq]
  refine ⟨?_, ?_, rfl⟩
  · show List.Sorted albumLe (sortAlbumFiles g.2.2)
    exact sortAlbumFiles_sorted _
  · cases hh : (sortAlbumFiles g.2.2).head? with
    | none => simp [leafNode, TNode.tags, TNode.files, hh]
    | some fe => simp [leafNode, TNode.tags, TNode.files, hh]

/-- C5 witness: the spec's leaf-ordering example — container indexes 2, 1, 1
and item indexes none, 2, 1 order as (1,1), (1,2), (2,none) — applied to the
single sentinel leaf built from `c5Data`. -/
theorem collect_leaf_members_witness :
    c5Leaf ∈ collectMediaLibraryTaxonomy c5Data "album" [] ∧
      (List.Sorted albumLe c5Leaf.2.files ∧
        c5Leaf.2.tags = c5Leaf.2.files.head?.map
          (fun fe => omitKeys ["title", "track", "disk"] (mergedTags fe.2)) ∧
        c5Leaf.2.isEndNode = true) := by
  have he : collectMediaLibraryTaxonomy c5Data "album" [] = [c5Leaf] := rfl
  have hm : c5Leaf ∈ collectMediaLibraryTaxonomy c5Data "album" [] := by
    rw [he]
    exact List.mem_singleton.mpr rfl
  exact ⟨hm, collect_leaf_members c5Data "album" c5Leaf hm⟩

theorem filterTax_nonEmpty (pred : Record → Bool) : ∀ items : List (String × TNode),
    forestNonEmpty (filterMediaLibraryTaxonomy pred items) = true
  | [] => by simp [filterMediaLibraryTaxonomy, forestNonEmpty]
  | (k, TNode.mk key data isNull isEnd children files tags) :: rest => by
    have ihrest := filterTax_nonEmpty pred rest
    have ihch := filterTax_nonEmpty pred children
    simp only [filterMediaLibraryTaxonomy]
    by_cases he : isEnd = true
    · by_cases hemp : (files.filter fun kv => pred kv.2).isEmpty = true
      · simp [he, hemp, ihrest]
      · simp [he, hemp, forestNonEmpty, ihrest]
    · by_cases hemp : (filterMediaLibraryTaxonomy pred children).isEmpty = true
      · simp [he, hemp, ihrest]
      · simp [he, hemp, forestNonEmpty, ihrest, ihch]

theorem filterTax_empty_of_rejected (pred : Record → Bool) :
    ∀ items : List (String × TNode),
      (∀ r ∈ leafMembers items, pred r = false) →
      filterMediaLibraryTaxonomy pred items = []
  | [] => by
    intro _
    simp [filterMediaLibraryTaxonomy]
  | (k, TNode.mk key data isNull isEnd children files tags) :: rest => by
    intro h
    have hmem : ∀ r, r ∈ (if isEnd = true then files.map Prod.snd else leafMembers children) ∨
        r ∈ leafMembers rest → r ∈ leafMembers ((k, TNode.mk key data isNull isEnd children files tags) :: rest) := by
      intro r hr
      simp only [leafMembers, List.mem_append]
      exact hr
    have hrest := filterTax_empty_of_rejected pred rest
      (fun r hr => h r (hmem r (Or.inr hr)))
    simp only [filterMediaLibraryTaxonomy]
    by_cases he : isEnd = true
    · have hfiles : (files.filter fun kv => pred kv.2) = [] := by
        rw [List.filter_eq_nil_iff]
        intro kv hkv hp
        have : pred kv.2 = false :=
          h kv.2 (hmem kv.2 (Or.inl (by
            rw [if_pos he]
            exact List.mem_map_of_mem Prod.snd hkv)))
        rw [this] at hp
        exact absurd hp (by simp)
      simp [he, hfiles, hrest]
    · have hch := filterTax_empty_of_rejected pred children
        (fun r hr => h r (hmem r (Or.inl (by rw [if_neg he]; exact hr))))
      simp [he, hch, hrest]

/-- C8: the tree produced by the category deriver's filter contains no empty
leaf and no empty branch (a leaf losing all members is dropped, a branch
losing all children is dropped), and a predicate that rejects every member
of every leaf yields the empty tree rather than an error. -/
theorem filter_no_empty_nodes (pred : Record → Bool) (items : List (String × TNode)) :
    forestNonEmpty (filterMediaLibraryTaxonomy pred items) = true ∧
      ((∀ r ∈ leafMembers items, pred r = false) →
        filterMediaLibraryTaxonomy pred items = []) :=
  ⟨filterTax_nonEmpty pred items, fun h => filterTax_empty_of_rejected pred items h⟩

/-- C8 witness: the reject-everything predicate over a two-level tree empties
it without error. -/
theorem filter_no_empty_nodes_witness :
    (∀ r ∈ leafMembers c8Tree, (fun _ : Record => false) r = false) ∧
      (forestNonEmpty (filterMediaLibraryTaxonomy (fun _ => false) c8Tree) = true ∧
        ((∀ r ∈ leafMembers c8Tree, (fun _ : Record => false) r = false) →
          filterMediaLibraryTaxonomy (fun _ => false) c8Tree = [])) :=
  ⟨fun _ _ => rfl, filter_no_empty_nodes (fun _ => false) c8Tree⟩

/-! ## Heap lemmas for the category deriver -/

theorem cloneEntries_spec : ∀ (fuel : Nat) (H : Heap) (m : List (String × Nat))
    {H' : Heap} {m' : List (String × Nat)}, cloneEntries fuel H m = some (H', m') →
    (∃ ext, H' = H ++ ext) ∧ (∀ p ∈ m', H.length ≤ p.2) ∧
      (∀ a c, H.length ≤ a → H'[a]? = some c → ∀ p ∈ c.children, H.length ≤ p.2)
  | 0, _, _, _, _, h => by simp [cloneEntries] at h
  | fuel + 1, H, [], H', m', h => by
    simp only [cloneEntries] at h
    have h' := Option.some_inj.mp h
    rw [Prod.mk.injEq] at h'
    obtain ⟨hH, hm⟩ := h'
    subst hH
    subst hm
    refine ⟨⟨[], (List.append_nil H).symm⟩, by simp, ?_⟩
    intro a c hla hget
    rw [List.getElem?_eq_none hla] at hget
    exact absurd hget (by simp)
  | fuel + 1, H, (k, a) :: rest, H', m', h => by
    simp only [cloneEntries] at h
    cases hc : H[a]? with
    | none =>
      rw [hc] at h
      exact absurd h (by simp)
    | some c =>
      simp only [hc] at h
      cases hcl : cloneEntries fuel H c.children with
      | none =>
        rw [hcl] at h
        exact absurd h (by simp)
      | some r₁ =>
        rcases r₁ with ⟨H₁, ch'⟩
        simp only [hcl] at h
        cases hcr : cloneEntries fuel (H₁ ++ [{ c with children := ch' }]) rest with
        | none =>
          rw [hcr] at h
          exact absurd h (by simp)
        | some r₂ =>
          rcases r₂ with ⟨H₃, rest'⟩
          simp only [hcr] at h
          have h' := Option.some_inj.mp h
          rw [Prod.mk.injEq] at h'
          obtain ⟨hH, hm⟩ := h'
          subst hH
          subst hm
          obtain ⟨⟨ext₁, hH₁⟩, hch', hcl₁⟩ := cloneEntries_spec fuel H c.children hcl
          obtain ⟨⟨ext₂, hH₃⟩, hrest', hcl₂⟩ :=
            cloneEntries_spec fuel (H₁ ++ [{ c with children := ch' }]) rest hcr
          have hlen₁ : H.length ≤ H₁.length := by
            rw [hH₁, List.length_append]
            omega
          have hlen₂ : (H₁ ++ [{ c with children := ch' }]).length = H₁.length + 1 := by
            rw [List.length_append]
            rfl
          refine ⟨⟨ext₁ ++ [{ c with children := ch' }] ++ ext₂, ?_⟩, ?_, ?_⟩
          · rw [hH₃, hH₁]
            simp [List.append_assoc]
          · intro p hp
            rcases List.mem_cons.mp hp with he | he
            · rw [he]
              exact hlen₁
            · have := hrest' p he
              rw [hlen₂] at this
              omega
          · intro a' c' hla' hget' p hp
            by_cases hlt : a' < (H₁ ++ [{ c with children := ch' }]).length
            · have hg : H₃[a']? = (H₁ ++ [{ c with children := ch' }])[a']? := by
                rw [hH₃, List.getElem?_append, if_pos hlt]
              rw [hg] at hget'
              by_cases hlt₁ : a' < H₁.length
              · have hg₁ : (H₁ ++ [{ c with children := ch' }])[a']? = H₁[a']? := by
                  rw [List.getElem?_append, if_pos hlt₁]
                rw [hg₁] at hget'
                exact hcl₁ a' c' hla' hget' p hp
              · have ha' : a' = H₁.length := by
                  rw [hlen₂] at hlt
                  omega
                subst ha'
                have hg₁ : (H₁ ++ [{ c with children := ch' }])[H₁.length]? =
                    some { c with children := ch' } := List.getElem?_concat_length _ _
                rw [hg₁] at hget'
                obtain rfl := Option.some_inj.mp hget'
                exact hch' p hp
            · have hge := le_of_not_lt hlt
              have := hcl₂ a' c' hge hget' p hp
              rw [hlen₂] at this
              omega

theorem filterEntries_spec (pred : Record → Bool) : ∀ (fuel : Nat) (lo : Nat) (H : Heap)
    (m : List (String × Nat)) {H' : Heap} {res : List (String × Nat)},
    (∀ p ∈ m, lo ≤ p.2) →
    (∀ a c, lo ≤ a → H[a]? = some c → ∀ p ∈ c.children, lo ≤ p.2) →
    filterEntries pred fuel H m = some (H', res) →
      (∀ b, b < lo → H'[b]? = H[b]?) ∧
      (∀ a c, lo ≤ a → H'[a]? = some c → ∀ p ∈ c.children, lo ≤ p.2) ∧
      (∀ p ∈ res, p ∈ m) ∧ H'.length = H.length
  | 0, _, _, _, _, _, _, _, h => by simp [filterEntries] at h
  | fuel + 1, lo, H, [], H', res, _, hh, h => by
    simp only [filterEntries] at h
    have h' := Option.some_inj.mp h
    rw [Prod.mk.injEq] at h'
    obtain ⟨hH, hm⟩ := h'
    subst hH
    subst hm
    exact ⟨fun _ _ => rfl, hh, fun p hp => absurd hp (List.not_mem_nil _), rfl⟩
  | fuel + 1, lo, H, (k, a) :: rest, H', res, hm, hh, h => by
    have hla : lo ≤ a := hm (k, a) (List.mem_cons_self _ _)
    have hmrest : ∀ p ∈ rest, lo ≤ p.2 := fun p hp => hm p (List.mem_cons_of_mem _ hp)
    simp only [filterEntries] at h
    cases hc : H[a]? with
    | none =>
      rw [hc] at h
      exact absurd h (by simp)
    | some c =>
      simp only [hc] at h
      have halen : a < H.length := by
        rcases List.getElem?_eq_some.mp hc with ⟨hlt, _⟩
        exact hlt
      by_cases hend : c.isEndNode = true
      · rw [if_pos hend] at h
        set c₁ := { c with files := c.files.filter fun kv => pred kv.2 } with hc₁
        have hhset : ∀ a' c', lo ≤ a' → (H.set a c₁)[a']? = some c' →
            ∀ p ∈ c'.children, lo ≤ p.2 := by
          intro a' c' hla' hget' p hp
          by_cases he : a = a'
          · subst he
            rw [List.getElem?_set_self halen] at hget'
            obtain rfl := Option.some_inj.mp hget'
            exact hh a c hla hc p hp
          · rw [List.getElem?_set_ne he] at hget'
            exact hh a' c' hla' hget' p hp
        cases hfr : filterEntries pred fuel (H.set a c₁) rest with
        | none =>
          rw [hfr] at h
          exact absurd h (by simp)
        | some r₂ =>
          rcases r₂ with ⟨H₂, res₂⟩
          simp only [hfr] at h
          have h' := Option.some_inj.mp h
          rw [Prod.mk.injEq] at h'
          obtain ⟨hH, hm'⟩ := h'
          subst hH
          obtain ⟨ih₁, ih₂, ih₃, ih₄⟩ :=
            filterEntries_spec pred fuel lo (H.set a c₁) rest hmrest hhset hfr
          refine ⟨?_, ih₂, ?_, by rw [ih₄, List.length_set]⟩
          · intro b hb
            rw [ih₁ b hb, List.getElem?_set_ne (by omega)]
          · intro p hp
            rw [← hm'] at hp
            by_cases hemp : (c.files.filter fun kv => pred kv.2).isEmpty = true
            · rw [if_pos hemp] at hp
              exact List.mem_cons_of_mem _ (ih₃ p hp)
            · rw [if_neg hemp] at hp
              rcases List.mem_cons.mp hp with he | he
              · rw [he]
                exact List.mem_cons_self _ _
              · exact List.mem_cons_of_mem _ (ih₃ p he)
      · rw [if_neg hend] at h
        cases hfc : filterEntries pred fuel H c.children with
        | none =>
          rw [hfc] at h
          exact absurd h (by simp)
        | some r₁ =>
          rcases r₁ with ⟨H₁, ch'⟩
          simp only [hfc] at h
          obtain ⟨ih₁, ih₂, ih₃, ih₄⟩ :=
            filterEntries_spec pred fuel lo H c.children (hh a c hla hc) hh hfc
          cases hc₁ : H₁[a]? with
          | none =>
            rw [hc₁] at h
            exact absurd h (by simp)
          | some c₁ =>
            simp only [hc₁] at h
            set c₂ := { c₁ with children := ch' } with hc₂
            have halen₁ : a < H₁.length := by
              rw [ih₄]
              exact halen
            have hhset : ∀ a' c', lo ≤ a' → (H₁.set a c₂)[a']? = some c' →
                ∀ p ∈ c'.children, lo ≤ p.2 := by
              intro a' c' hla' hget' p hp
              by_cases he : a = a'
              · subst he
                rw [List.getElem?_set_self halen₁] at hget'
                obtain rfl := Option.some_inj.mp hget'
                have hpch : p ∈ c.children := ih₃ p hp
                exact hh a c hla hc p hpch
              · rw [List.getElem?_set_ne he] at hget'
                exact ih₂ a' c' hla' hget'  p hp
            cases hfr : filterEntries pred fuel (H₁.set a c₂) rest with
            | none =>
              rw [hfr] at h
              exact absurd h (by simp)
            | some r₂ =>
              rcases r₂ with ⟨H₃, res₃⟩
              simp only [hfr] at h
              have h' := Option.some_inj.mp h
              rw [Prod.mk.injEq] at h'
              obtain ⟨hH, hm'⟩ := h'
              subst hH
              obtain ⟨jh₁, jh₂, jh₃, jh₄⟩ :=
                filterEntries_spec pred fuel lo (H₁.set a c₂) rest hmrest hhset hfr
              refine ⟨?_, jh₂, ?_, by rw [jh₄, List.length_set, ih₄]⟩
              · intro b hb
                rw [jh₁ b hb, List.getElem?_set_ne (by omega), ih₁ b hb]
              · intro p hp
                rw [← hm'] at hp
                by_cases hemp : ch'.isEmpty = true
                · rw [if_pos hemp] at hp
                  exact List.mem_cons_of_mem _ (jh₃ p hp)
                · rw [if_neg hemp] at hp
                  rcases List.mem_cons.mp hp with he | he
                  · rw [he]
                    exact List.mem_cons_self _ _
                  · exact List.mem_cons_of_mem _ (jh₃ p he)

/-- C9: the secondary-category derivation — deep-clone of the primary tree
followed by the in-place filter — never changes any pre-existing heap cell,
so the primary tree is field-for-field what it was before the derivation;
and the derived tree lives entirely in the fresh cells (every address it
reaches, from its roots down through every child map, is at or above the old
heap size), so no branch or leaf object is shared between the two trees. -/
theorem derive_preserves_primary (pred : Record → Bool) (fuel₁ fuel₂ : Nat)
    (H : Heap) (m : List (String × Nat)) (H₂ : Heap) (res : List (String × Nat))
    (h : deriveSecondary pred fuel₁ fuel₂ H m = some (H₂, res)) :
    (∀ a, a < H.length → H₂[a]? = H[a]?) ∧
      (∀ p ∈ res, H.length ≤ p.2) ∧
      (∀ a c, H.length ≤ a → H₂[a]? = some c → ∀ p ∈ c.children, H.length ≤ p.2) := by
  simp only [deriveSecondary] at h
  cases hcl : cloneEntries fuel₁ H m with
  | none =>
    rw [hcl] at h
    exact absurd h (by simp)
  | some r₁ =>
    rcases r₁ with ⟨H₁, m₁⟩
    simp only [hcl] at h
    cases hfl : filterEntries pred fuel₂ H₁ m₁ with
    | none =>
      rw [hfl] at h
      exact absurd h (by simp)
    | some r₂ =>
      rcases r₂ with ⟨H₂', res'⟩
      simp only [hfl] at h
      have h' := Option.some_inj.mp h
      rw [Prod.mk.injEq] at h'
      obtain ⟨hH, hres⟩ := h'
      subst hH
      subst hres
      obtain ⟨⟨ext, hext⟩, hb, hcl'⟩ := cloneEntries_spec fuel₁ H m hcl
      obtain ⟨f₁, f₂, f₃, _⟩ := filterEntries_spec pred fuel₂ H.length H₁ m₁ hb hcl' hfl
      refine ⟨?_, ?_, f₂⟩
      · intro a ha
        rw [f₁ a ha, hext, List.getElem?_append, if_pos ha]
      · intro p hp
        exact hb p (f₃ p hp)

/-- C9 witness: a one-leaf primary tree at address 0; the derivation clones
it to address 1 and filters there, leaving cell 0 untouched and the result
rooted at the fresh address. -/
theorem derive_preserves_primary_witness :
    deriveSecondary (fun _ => true) 3 3 c9Heap [("X", 0)] =
        some ([c9Cell, c9Cell], [("X", 1)]) ∧
      ((∀ a, a < c9Heap.length → ([c9Cell, c9Cell] : Heap)[a]? = c9Heap[a]?) ∧
        (∀ p ∈ [("X", 1)], c9Heap.length ≤ p.2) ∧
        (∀ a c, c9Heap.length ≤ a → ([c9Cell, c9Cell] : Heap)[a]? = some c →
          ∀ p ∈ c.children, c9Heap.length ≤ p.2)) :=
  ⟨by decide, derive_preserves_primary (fun _ => true) 3 3 c9Heap [("X", 0)]
    [c9Cell, c9Cell] [("X", 1)] (by decide)⟩

/-- C2: the playlist resolution step computes the record-attached list `pl`
but stores the original unresolved `playlists` into the media-library state;
at this input the stored output keeps the bare track reference while the
discarded resolution would have attached the catalogued record. -/
theorem importPlaylists_discards_resolution :
    importPlaylists plData plDefs = plDefs ∧
      (resolveTracks plData plDefs).map (fun pl => pl.tracks) = [[some plRecord]] :=
  ⟨rfl, by decide⟩

end Musidx
